import Mathlib

/-!
# Verification of the spectre tagged dependency-graph store

This file formalises, over a shallow embedding, the worldtube tag
declarations of `CurvedScalarWave::Worldtube` (the source sample) and the
tagged dependency-graph store ("box") they plug into: tag resolution,
option-driven construction, lazy memoized evaluation (`get`) and
mutation/invalidation (`mutate`).

The tag declarations (`create_from_options` functions of `Charge`, `Mass`,
`ExpansionOrder`, `CheckInputFile`, `ExcisionSphere`) are translated
directly from the source header.  The store engine itself (graph builder,
storage/memoization engine, mutation/invalidation engine) is not part of
the source sample - only the tag declarations that feed it are - so it is
modelled from the specification, as marked on each definition.
-/

namespace Spectre

/-- Association-list lookup used as the model of `std::unordered_map`
lookups and of registry/option-table lookups. -/
def assocFind {α β : Type} [DecidableEq α] : List (α × β) → α → Option β
  | [], _ => none
  | (k, v) :: rest, a => if k = a then some v else assocFind rest a

@[simp]
theorem assocFind_nil {α β : Type} [DecidableEq α] (a : α) :
    assocFind ([] : List (α × β)) a = none := rfl

@[simp]
theorem assocFind_cons {α β : Type} [DecidableEq α] (k : α) (v : β)
    (rest : List (α × β)) (a : α) :
    assocFind ((k, v) :: rest) a = if k = a then some v else assocFind rest a := rfl

/-- The number of entries of an association list carrying the given key,
modelling `std::unordered_map::count`. -/
def assocCount {α β : Type} [DecidableEq α] (l : List (α × β)) (a : α) : Nat :=
  l.countP (fun p => p.1 = a)

theorem assocCount_eq_zero_iff_find_eq_none {α β : Type} [DecidableEq α]
    (l : List (α × β)) (a : α) :
    assocCount l a = 0 ↔ assocFind l a = none := by
  induction l with
  | nil => simp [assocCount]
  | cons p rest ih =>
    obtain ⟨k, v⟩ := p
    by_cases hk : k = a
    · subst hk
      simp [assocCount, List.countP_cons]
    · simp only [assocFind_cons, if_neg hk]
      simpa [assocCount, List.countP_cons, hk] using ih

/-! ## Source-level tag declarations

Direct translations of the `create_from_options` functions appearing in the
source header `CurvedScalarWave::Worldtube::Tags`.  `double` values are
modelled as exact rationals and `size_t` values as `Nat`. -/

namespace Tags

/-- Embeds `Tags::Charge::create_from_options`:
`static double create_from_options(const double charge) { return charge; }` -/
def Charge.create_from_options (charge : ℚ) : ℚ := charge

/-- Embeds `Tags::Mass::create_from_options`:
`static double create_from_options(const double mass) { return mass; }` -/
def Mass.create_from_options (mass : ℚ) : ℚ := mass

/-- Embeds `Tags::ExpansionOrder::create_from_options`:
`static size_t create_from_options(const size_t order) { return order; }` -/
def ExpansionOrder.create_from_options (order : Nat) : Nat := order

/-- Model of one `::ExcisionSphere<Dim>` entry of the domain, as far as
`CheckInputFile` inspects it: whether `get<0>(excision_sphere.center())`
compares equal to `0.` within roundoff. -/
structure ExcisionSphereModel where
  center_x_is_zero : Bool

/-- Model of the Kerr-Schild background as far as
`CheckInputFile::create_from_options` inspects it: the results of the
`zero_spin()` check and of the two `equal_within_roundoff` comparisons of
`center()` against the origin and of `mass()` against `1.`. -/
structure KerrSchildModel where
  zero_spin : Bool
  center_is_origin : Bool
  mass_is_one : Bool

/-- Model of the created domain and its functions of time as far as
`CheckInputFile::create_from_options` inspects them: the excision-sphere
map, whether the functions of time contain a key `"Rotation"`, whether the
dynamic cast of that function to `QuaternionFunctionOfTime<3>` succeeds,
and the result of the `equal_within_roundoff` comparison of the angular
velocity against `[0., 0., pow(orbital_radius, -1.5)]`. -/
structure DomainModel where
  excision_spheres : List (String × ExcisionSphereModel)
  has_rotation : Bool
  rotation_is_quaternion : Bool
  angular_velocity_is_circular : Bool

/-- Embeds `Tags::CheckInputFile::create_from_options`.  `ERROR(...)` calls
(and the `std::out_of_range` thrown by `excision_spheres.at` for an absent
name) are modelled as `Except.error` carrying the message; the external
numeric comparisons are supplied as the precomputed booleans of the model
structures. -/
def CheckInputFile.create_from_options (domain : DomainModel)
    (excision_sphere_name : String) (kerr_schild_background : KerrSchildModel) :
    Except String Bool :=
  if kerr_schild_background.zero_spin = false then
    Except.error
      "Black hole spin is not implemented yet but you requested non-zero spin."
  else if kerr_schild_background.center_is_origin = false then
    Except.error "The central black hole must be centered at [0., 0., 0.]."
  else if kerr_schild_background.mass_is_one = false then
    Except.error "The central black hole must have mass 1."
  else
    match assocFind domain.excision_spheres excision_sphere_name with
    | none => Except.error "std::out_of_range"
    | some excision_sphere =>
      if domain.has_rotation = false then
        Except.error "Expected functions of time to contain a Rotation function."
      else if domain.rotation_is_quaternion = false then
        Except.error "Failed dynamic cast to QuaternionFunctionOfTime."
      else if excision_sphere.center_x_is_zero = true then
        Except.error "The orbital radius was set to 0."
      else if domain.angular_velocity_is_circular = false then
        Except.error
          "Only circular orbits are implemented at the moment so the angular velocity should be [0., 0., orbital_radius^(-3/2)]."
      else
        Except.ok true

/-- Embeds `Tags::ExcisionSphere<Dim>::create_from_options`: error if the
named excision sphere is absent from the domain map (`count == 0`),
otherwise return the stored sphere (`excision_spheres.at(...)`).  The
sphere payload is opaque to this function, hence a type parameter. -/
def ExcisionSphere.create_from_options {S : Type}
    (excision_spheres : List (String × S)) (excision_sphere : String) :
    Except String S :=
  if assocCount excision_spheres excision_sphere = 0 then
    Except.error
      ("Specified excision sphere '" ++ excision_sphere ++ "' not available.")
  else
    match assocFind excision_spheres excision_sphere with
    | some sphere => Except.ok sphere
    | none => Except.error "std::out_of_range"

end Tags

/-! ## The tagged dependency-graph store

Modelled from the spec: the store engine (Tag Registry & Graph Builder,
Storage & Memoization Engine, Option-Construction Resolver,
Mutation/Invalidation Engine) is not part of the source sample - only the
tag declarations above are - so the definitions below follow the
specification sections 3, 4 and 6 (tag kinds, slots, `resolve`,
`construct`, `get`, `mutate`). -/

/-- Modelled from the spec: a tag's kind - `Simple` (supplied externally or
built from options via a construction function over declared option tags)
or `Compute` (derived from an ordered argument-tag list by a pure
function).  Tags are identified by stable `Nat` identifiers and the value
payload type `V` is opaque to the core. -/
inductive TagKind (V : Type) where
  | SimpleExternal : TagKind V
  | SimpleFromOptions (opts : List Nat) (create : List ℚ → V) : TagKind V
  | Compute (args : List Nat) (f : List V → V) : TagKind V

/-- Modelled from the spec: a registry entry - the tag's kind plus the
logical base tag it implements, if any (base-tag redirection). -/
structure TagDecl (V : Type) where
  kind : TagKind V
  base : Option Nat := none

/-- Modelled from the spec: the registry mapping each tag to its
declaration. -/
abbrev Registry (V : Type) := List (Nat × TagDecl V)

/-- The dependency (argument-tag) list of a kind. -/
def TagKind.deps {V : Type} : TagKind V → List Nat
  | TagKind.SimpleExternal => []
  | TagKind.SimpleFromOptions _ _ => []
  | TagKind.Compute args _ => args

/-- The kind registered for a tag, if any. -/
def lookupKind {V : Type} (reg : Registry V) (t : Nat) : Option (TagKind V) :=
  (assocFind reg t).map TagDecl.kind

/-- The dependency list registered for a tag (empty if unregistered). -/
def depsOf {V : Type} (reg : Registry V) (t : Nat) : List Nat :=
  match lookupKind reg t with
  | some k => k.deps
  | none => []

/-- Whether a tag is registered as a `Compute` tag. -/
def isComputeB {V : Type} (reg : Registry V) (t : Nat) : Bool :=
  match lookupKind reg t with
  | some (TagKind.Compute _ _) => true
  | _ => false

/-- Whether a tag is registered as a `Simple` tag. -/
def isSimpleB {V : Type} (reg : Registry V) (t : Nat) : Bool :=
  match lookupKind reg t with
  | some TagKind.SimpleExternal => true
  | some (TagKind.SimpleFromOptions _ _) => true
  | _ => false

/-- The base tag declared by a tag, if any. -/
def baseOf {V : Type} (reg : Registry V) (t : Nat) : Option Nat :=
  match assocFind reg t with
  | some d => d.base
  | none => none

/-- Modelled from the spec: the build-time graph errors. -/
inductive GraphError where
  | UnresolvedDependency : GraphError
  | CyclicDependency : GraphError
  | AmbiguousBaseTag : GraphError
deriving DecidableEq, Repr

/-- Modelled from the spec: visit each tag of a pending list in turn with
the given visitor, threading the accumulated finished (`black`) list and
propagating the first failure. -/
def dfsRun (step : Nat → List Nat → Except GraphError (List Nat)) :
    List Nat → List Nat → Except GraphError (List Nat)
  | [], black => Except.ok black
  | u :: rest, black =>
    match step u black with
    | Except.error e => Except.error e
    | Except.ok black2 => dfsRun step rest black2

/-- Modelled from the spec: depth-first traversal of the dependency graph
from one tag.  `gray` holds the tags on the current traversal path (a hit
means a cycle), `black` the finished tags in leaf-first topological order.
A missing registry entry is `UnresolvedDependency`; the recursion-depth
fuel (always instantiated to more than the registry size, which bounds the
path length) can only run out on a cyclic path. -/
def dfsVisit {V : Type} (reg : Registry V) :
    Nat → Nat → List Nat → List Nat → Except GraphError (List Nat)
  | 0, _, _, _ => Except.error GraphError.CyclicDependency
  | fuel + 1, u, gray, black =>
    if u ∈ black then Except.ok black
    else if u ∈ gray then Except.error GraphError.CyclicDependency
    else
      match assocFind reg u with
      | none => Except.error GraphError.UnresolvedDependency
      | some d =>
        match dfsRun (fun a black2 => dfsVisit reg fuel a (u :: gray) black2)
            d.kind.deps black with
        | Except.error e => Except.error e
        | Except.ok black2 => Except.ok (black2 ++ [u])

/-- Modelled from the spec: the full depth-first traversal from the
requested root set. -/
def dfsTraverse {V : Type} (reg : Registry V) (roots : List Nat) :
    Except GraphError (List Nat) :=
  dfsRun (fun u black => dfsVisit reg (reg.length + 1) u [] black) roots []

/-- Whether two distinct tags of the resolved set declare the same base
tag. -/
def hasAmbiguousBase {V : Type} (reg : Registry V) (order : List Nat) : Bool :=
  order.any (fun t => order.any (fun u =>
    decide (t ≠ u) && (baseOf reg t == baseOf reg u) && (baseOf reg t).isSome))

/-- Modelled from the spec: `resolve(tagSet)` - compute the transitive
closure of the roots in leaf-first topological order by depth-first
traversal, then reject resolved sets in which two distinct concrete
implementations claim the same base tag. -/
def resolve {V : Type} (reg : Registry V) (roots : List Nat) :
    Except GraphError (List Nat) :=
  match dfsTraverse reg roots with
  | Except.error e => Except.error e
  | Except.ok order =>
    if hasAmbiguousBase reg order then Except.error GraphError.AmbiguousBaseTag
    else Except.ok order

/-- Modelled from the spec: whether `u` depends directly or transitively on
`t`, decided by following argument lists (the fuel is always instantiated
to more than the registry size, which bounds the path length). -/
def dependsOn {V : Type} (reg : Registry V) : Nat → Nat → Nat → Bool
  | 0, _, _ => false
  | fuel + 1, u, t => (depsOf reg u).any (fun a => a = t || dependsOn reg fuel a t)

/-- Modelled from the spec: one direct dependency step - `a` is among the
argument tags of `u`. -/
def DepStep {V : Type} (reg : Registry V) (u a : Nat) : Prop :=
  a ∈ depsOf reg u

/-- Modelled from the spec: `u` depends directly or transitively on `t`
(`t` is in the reverse-reachable/dependents closure of `u`). -/
def Depends {V : Type} (reg : Registry V) (u t : Nat) : Prop :=
  Relation.TransGen (DepStep reg) u t

/-- Modelled from the spec: `t` is reachable from the requested root set by
following dependency edges. -/
def ReachableFrom {V : Type} (reg : Registry V) (roots : List Nat) (t : Nat) : Prop :=
  ∃ r ∈ roots, Relation.ReflTransGen (DepStep reg) r t

/-! ### Option-driven construction -/

/-- Modelled from the spec: declarative bound metadata attached to an
option tag's descriptor (`lower_bound()` / `upper_bound()`). -/
structure OptionBound where
  lower : Option ℚ := none
  upper : Option ℚ := none

/-- Modelled from the spec: the way an option value violates its tag's
declared constraints - absent from the option table, below the declared
lower bound, or above the declared upper bound. -/
inductive OptionViolation where
  | Missing : OptionViolation
  | Lower (bound : ℚ) : OptionViolation
  | Upper (bound : ℚ) : OptionViolation
deriving DecidableEq, Repr

/-- Modelled from the spec: construction-time failures - a graph error from
`resolve`, `InvalidOption` naming the offending option tag and the bound
violated, or the usage error of an externally-supplied simple tag left
uninitialized. -/
inductive ConstructionError where
  | Graph (e : GraphError) : ConstructionError
  | InvalidOption (tag : Nat) (violation : OptionViolation) : ConstructionError
  | UninitializedAccess (tag : Nat) : ConstructionError
deriving DecidableEq, Repr

/-- Check an option value against a declared lower bound. -/
def checkLower (o : Nat) (v : ℚ) : Option ℚ → Except ConstructionError Unit
  | none => Except.ok ()
  | some lo =>
    if v < lo then Except.error (ConstructionError.InvalidOption o (OptionViolation.Lower lo))
    else Except.ok ()

/-- Check an option value against a declared upper bound. -/
def checkUpper (o : Nat) (v : ℚ) : Option ℚ → Except ConstructionError Unit
  | none => Except.ok ()
  | some hi =>
    if hi < v then Except.error (ConstructionError.InvalidOption o (OptionViolation.Upper hi))
    else Except.ok ()

/-- Modelled from the spec: validate one named option value against the
bounds declared by its option tag; missing or out-of-range values fail with
`InvalidOption` naming the offending tag and the bound violated. -/
def validateOption (odecls : List (Nat × OptionBound)) (table : List (Nat × ℚ))
    (o : Nat) : Except ConstructionError ℚ :=
  match assocFind table o with
  | none => Except.error (ConstructionError.InvalidOption o OptionViolation.Missing)
  | some v =>
    match assocFind odecls o with
    | none => Except.ok v
    | some bd =>
      match checkLower o v bd.lower with
      | Except.error e => Except.error e
      | Except.ok _ =>
        match checkUpper o v bd.upper with
        | Except.error e => Except.error e
        | Except.ok _ => Except.ok v

/-- Validate the full option list declared by one simple tag, left to
right, propagating the first failure. -/
def collectOptions (odecls : List (Nat × OptionBound)) (table : List (Nat × ℚ)) :
    List Nat → Except ConstructionError (List ℚ)
  | [] => Except.ok []
  | o :: rest =>
    match validateOption odecls table o with
    | Except.error e => Except.error e
    | Except.ok v =>
      match collectOptions odecls table rest with
      | Except.error e => Except.error e
      | Except.ok vs => Except.ok (v :: vs)

/-! ### The box: storage slots, construction, `get`, `mutate` -/

/-- Modelled from the spec: the heterogeneous container holding one storage
slot per tag of its resolved tag set - the registry it was resolved
against, the resolved tag set in leaf-first topological order, and per-tag
slot state `{ value, clean|dirty }`. -/
structure Box (V : Type) where
  registry : Registry V
  tags : List Nat
  value : Nat → V
  dirty : Nat → Bool

/-- Modelled from the spec: the initial slot of one tag - externally
supplied simple values and option-constructed simple values start clean,
compute slots start dirty (populated on first read). -/
def initSlot {V : Type} [Inhabited V] (reg : Registry V)
    (odecls : List (Nat × OptionBound)) (table : List (Nat × ℚ))
    (ext : List (Nat × V)) (t : Nat) : Except ConstructionError (V × Bool) :=
  match lookupKind reg t with
  | none => Except.error (ConstructionError.Graph GraphError.UnresolvedDependency)
  | some TagKind.SimpleExternal =>
    match assocFind ext t with
    | none => Except.error (ConstructionError.UninitializedAccess t)
    | some v => Except.ok (v, false)
  | some (TagKind.SimpleFromOptions opts create) =>
    match collectOptions odecls table opts with
    | Except.error e => Except.error e
    | Except.ok vals => Except.ok (create vals, false)
  | some (TagKind.Compute _ _) => Except.ok (default, true)

/-- Modelled from the spec: populate the slots of the resolved tag set in
evaluation order, propagating the first construction failure. -/
def constructSlots {V : Type} [Inhabited V] (reg : Registry V)
    (odecls : List (Nat × OptionBound)) (table : List (Nat × ℚ))
    (ext : List (Nat × V)) :
    List Nat → (Nat → V) → (Nat → Bool) →
    Except ConstructionError ((Nat → V) × (Nat → Bool))
  | [], val, dty => Except.ok (val, dty)
  | t :: rest, val, dty =>
    match initSlot reg odecls table ext t with
    | Except.error e => Except.error e
    | Except.ok (v, d) =>
      constructSlots reg odecls table ext rest
        (fun u => if u = t then v else val u)
        (fun u => if u = t then d else dty u)

/-- Modelled from the spec:
`construct(tagSet, optionTable, externalArgs) -> Box | ConstructionError` -
resolve the tag set, then populate every slot. -/
def construct {V : Type} [Inhabited V] (reg : Registry V)
    (odecls : List (Nat × OptionBound)) (roots : List Nat)
    (table : List (Nat × ℚ)) (ext : List (Nat × V)) :
    Except ConstructionError (Box V) :=
  match resolve reg roots with
  | Except.error e => Except.error (ConstructionError.Graph e)
  | Except.ok order =>
    match constructSlots reg odecls table ext order (fun _ => default) (fun _ => true) with
    | Except.error e => Except.error e
    | Except.ok (val, dty) => Except.ok ⟨reg, order, val, dty⟩

/-- Overwrite one slot with a freshly computed value and mark it clean. -/
def setSlot {V : Type} (b : Box V) (t : Nat) (v : V) : Box V :=
  { b with
    value := fun u => if u = t then v else b.value u,
    dirty := fun u => if u = t then false else b.dirty u }

/-- The result of evaluating a list of tags: their values, the box after
the evaluation, and the log of compute tags whose function was invoked, in
invocation order. -/
structure GetRes (V : Type) where
  values : List V
  box : Box V
  log : List Nat

/-- The result of reading one tag. -/
structure GetOne (V : Type) where
  value : V
  box : Box V
  log : List Nat

/-- Modelled from the spec: evaluate a list of tags left to right with the
given per-tag reader, threading the box state and concatenating the
compute-invocation logs. -/
def getRun {V : Type} (step : Box V → Nat → GetOne V) :
    Box V → List Nat → GetRes V
  | b, [] => ⟨[], b, []⟩
  | b, t :: rest =>
    let r1 := step b t
    let rr := getRun step r1.box rest
    ⟨r1.value :: rr.values, rr.box, r1.log ++ rr.log⟩

/-- Modelled from the spec: lazy memoized evaluation of one tag.  A
`Simple` tag returns its stored value; a clean `Compute` tag returns its
cached value; a dirty `Compute` tag first evaluates its argument tags
recursively, then invokes its function on their values, stores the result,
marks the slot clean and returns it.  The log records every
compute-function invocation.  The recursion-depth fuel (always
instantiated to more than the registry size, which bounds the dependency
depth of a resolved DAG) guards termination. -/
def getOne {V : Type} [Inhabited V] : Nat → Box V → Nat → GetOne V
  | 0, b, _ => ⟨default, b, []⟩
  | fuel + 1, b, t =>
    match lookupKind b.registry t with
    | some (TagKind.Compute args f) =>
      if b.dirty t then
        let ra := getRun (getOne fuel) b args
        let v := f ra.values
        ⟨v, setSlot ra.box t v, ra.log ++ [t]⟩
      else ⟨b.value t, b, []⟩
    | _ => ⟨b.value t, b, []⟩

/-- Modelled from the spec: `get(box, tag)` - lazy memoized read of one
tag. -/
def get {V : Type} [Inhabited V] (b : Box V) (t : Nat) : GetOne V :=
  getOne (b.registry.length + 1) b t

/-- Modelled from the spec: `mutate(box, tag, updateFn)` - the tag must be
`Simple` (mutating a `Compute` tag is a fatal usage error, modelled as
`none`); apply `fn` to the stored value in place, then mark every tag of
the dependents (reverse-reachable) set of `tag` dirty, without eager
recomputation. -/
def mutate {V : Type} (b : Box V) (t : Nat) (fn : V → V) : Option (Box V) :=
  if isSimpleB b.registry t then
    some { b with
      value := fun u => if u = t then fn (b.value u) else b.value u,
      dirty := fun u =>
        if dependsOn b.registry (b.registry.length + 1) u t then true else b.dirty u }
  else none

/-! ### Well-formedness invariants of a constructed box -/

/-- The index of the first occurrence of a tag in a list (the list's length
if absent); the rank of a tag in the evaluation order. -/
def idxIn : List Nat → Nat → Nat
  | [], _ => 0
  | a :: rest, t => if a = t then 0 else idxIn rest t + 1

/-- The resolved tag list is dependency-closed and leaf-first: every
dependency of a member is a member of strictly smaller rank. -/
def topoOk {V : Type} (reg : Registry V) (tags : List Nat) : Prop :=
  ∀ t ∈ tags, ∀ a ∈ depsOf reg t, a ∈ tags ∧ idxIn tags a < idxIn tags t

/-- Well-formedness of a box's resolved tag set, as established by the
graph builder: topological order, registered tags, no duplicates, and no
more tags than registry entries. -/
structure WF {V : Type} (b : Box V) : Prop where
  topo : topoOk b.registry b.tags
  regd : ∀ t ∈ b.tags, (assocFind b.registry t).isSome
  nodup : b.tags.Nodup
  card : b.tags.length ≤ b.registry.length

/-- Simple-tag slots are always clean once written (they are written at
construction time). -/
def SimplesClean {V : Type} (b : Box V) : Prop :=
  ∀ t ∈ b.tags, isComputeB b.registry t = false → b.dirty t = false

/-- The caching invariant: a clean `Compute` slot has clean arguments and
caches exactly its function applied to the current argument values. -/
def Coherent {V : Type} (b : Box V) : Prop :=
  ∀ t ∈ b.tags, b.dirty t = false →
    ∀ args f, lookupKind b.registry t = some (TagKind.Compute args f) →
      (∀ a ∈ args, b.dirty a = false) ∧ b.value t = f (args.map b.value)

/-- The full state invariant of a constructed box, preserved by `get` and
`mutate`. -/
def Inv {V : Type} (b : Box V) : Prop :=
  WF b ∧ SimplesClean b ∧ Coherent b

/-- The state relation guaranteed by any read: registry and tag set are
unchanged, clean slots are untouched, and non-compute slots are
untouched. -/
structure GetPost {V : Type} (b b2 : Box V) : Prop where
  reg : b2.registry = b.registry
  tags : b2.tags = b.tags
  clean : ∀ u, b.dirty u = false → b2.value u = b.value u ∧ b2.dirty u = false
  simple : ∀ u, isComputeB b.registry u = false →
    b2.value u = b.value u ∧ b2.dirty u = b.dirty u

/-- The full specification of reading one tag `t` of box `b` with result
`r`: state post-relation, invariant preservation, the read tag is clean
afterwards, the returned value is the stored value, and the invocation log
holds exactly the compute tags (of rank at most `t`) that went from dirty
to clean, each once. -/
structure StepSpec {V : Type} (b : Box V) (t : Nat) (r : GetOne V) : Prop where
  post : GetPost b r.box
  inv : Inv r.box
  cleaned : isComputeB b.registry t = true → r.box.dirty t = false
  val : r.value = r.box.value t
  logElems : ∀ u ∈ r.log, isComputeB b.registry u = true ∧ b.dirty u = true ∧
    idxIn b.tags u ≤ idxIn b.tags t
  logComplete : ∀ u, b.dirty u = true → r.box.dirty u = false → u ∈ r.log
  logNodup : r.log.Nodup
  logCleaned : ∀ u ∈ r.log, r.box.dirty u = false

/-- The list version of `StepSpec`, for reading the tags `ts` left to
right. -/
structure RunSpec {V : Type} (b : Box V) (ts : List Nat) (r : GetRes V) : Prop where
  post : GetPost b r.box
  inv : Inv r.box
  values : r.values = ts.map r.box.value
  cleaned : ∀ t ∈ ts, isComputeB b.registry t = true → r.box.dirty t = false
  logElems : ∀ u ∈ r.log, isComputeB b.registry u = true ∧ b.dirty u = true ∧
    ∃ t ∈ ts, idxIn b.tags u ≤ idxIn b.tags t
  logComplete : ∀ u, b.dirty u = true → r.box.dirty u = false → u ∈ r.log
  logNodup : r.log.Nodup
  logCleaned : ∀ u ∈ r.log, r.box.dirty u = false

/-- A reader that satisfies `StepSpec` on every well-formed box at every
tag of rank below `n`. -/
def GoodStep {V : Type} (n : Nat) (step : Box V → Nat → GetOne V) : Prop :=
  ∀ b t, Inv b → t ∈ b.tags → idxIn b.tags t < n → StepSpec b t (step b t)

/-- The diamond registry of the spec's consistency scenario: simple tag 0
feeds compute tags 1 and 2, and compute tag 3 depends on both. -/
def diamondReg {V : Type} (fB fC fD : List V → V) : Registry V :=
  [(0, ⟨TagKind.SimpleExternal, none⟩),
   (1, ⟨TagKind.Compute [0] fB, none⟩),
   (2, ⟨TagKind.Compute [0] fC, none⟩),
   (3, ⟨TagKind.Compute [1, 2] fD, none⟩)]

/-! ### Rank lemmas -/

theorem idxIn_lt_length {l : List Nat} {t : Nat} (h : t ∈ l) :
    idxIn l t < l.length := by
  induction l with
  | nil => cases h
  | cons a rest ih =>
    by_cases ha : a = t
    · simp [idxIn, ha]
    · rcases List.mem_cons.mp h with he | hm
      · exact absurd he.symm ha
      · simpa [idxIn, ha, Nat.succ_lt_succ_iff] using ih hm

theorem idxIn_append_left {l : List Nat} {t : Nat} (h : t ∈ l) (l2 : List Nat) :
    idxIn (l ++ l2) t = idxIn l t := by
  induction l with
  | nil => cases h
  | cons a rest ih =>
    by_cases ha : a = t
    · simp [idxIn, ha]
    · rcases List.mem_cons.mp h with he | hm
      · exact absurd he.symm ha
      · simp [idxIn, ha, ih hm]

theorem idxIn_append_right {l : List Nat} {t : Nat} (h : t ∉ l) (l2 : List Nat) :
    idxIn (l ++ l2) t = l.length + idxIn l2 t := by
  induction l with
  | nil => simp
  | cons a rest ih =>
    have ha : a ≠ t := fun he => h (he ▸ List.mem_cons_self a rest)
    have hr : t ∉ rest := fun hm => h (List.mem_cons_of_mem a hm)
    simp [idxIn, ha, ih hr, Nat.succ_add]

theorem idxIn_of_notMem {l : List Nat} {t : Nat} (h : t ∉ l) :
    idxIn l t = l.length := by
  induction l with
  | nil => rfl
  | cons a rest ih =>
    have ha : a ≠ t := fun he => h (he ▸ List.mem_cons_self a rest)
    have hr : t ∉ rest := fun hm => h (List.mem_cons_of_mem a hm)
    simp [idxIn, ha, ih hr]

/-! ### Reachability lemmas -/

theorem dependsOn_mono {V : Type} {reg : Registry V} :
    ∀ {fuel fuel' u t : Nat}, fuel ≤ fuel' →
      dependsOn reg fuel u t = true → dependsOn reg fuel' u t = true := by
  intro fuel
  induction fuel with
  | zero => intro fuel' u t _ h; simp [dependsOn] at h
  | succ f ih =>
    intro fuel' u t hle h
    obtain ⟨f2, rfl⟩ : ∃ f2, fuel' = f2 + 1 := by
      cases fuel' with
      | zero => omega
      | succ f2 => exact ⟨f2, rfl⟩
    simp only [dependsOn, List.any_eq_true] at h ⊢
    obtain ⟨a, ha, hc⟩ := h
    refine ⟨a, ha, ?_⟩
    rcases Bool.or_eq_true_iff.mp hc with hc | hc
    · exact Bool.or_eq_true_iff.mpr (Or.inl hc)
    · exact Bool.or_eq_true_iff.mpr (Or.inr (ih (by omega) hc))

theorem dependsOn_sound {V : Type} {reg : Registry V} :
    ∀ {fuel u t : Nat}, dependsOn reg fuel u t = true → Depends reg u t := by
  intro fuel
  induction fuel with
  | zero => intro u t h; simp [dependsOn] at h
  | succ f ih =>
    intro u t h
    simp only [dependsOn, List.any_eq_true] at h
    obtain ⟨a, ha, hc⟩ := h
    rcases Bool.or_eq_true_iff.mp hc with hc | hc
    · exact Relation.TransGen.single (by simpa [DepStep, decide_eq_true_iff.mp hc] using ha)
    · exact Relation.TransGen.head ha (ih hc)

theorem depends_rank_lt {V : Type} {reg : Registry V} {tags : List Nat}
    (htopo : topoOk reg tags) {u t : Nat} (hu : u ∈ tags)
    (h : Depends reg u t) : t ∈ tags ∧ idxIn tags t < idxIn tags u := by
  induction h with
  | single hstep => exact htopo u hu _ hstep
  | tail hpath hstep ih =>
    obtain ⟨hbmem, hblt⟩ := ih
    obtain ⟨htmem, htlt⟩ := htopo _ hbmem _ hstep
    exact ⟨htmem, lt_trans htlt hblt⟩

theorem dependsOn_complete {V : Type} {reg : Registry V} {tags : List Nat}
    (htopo : topoOk reg tags) :
    ∀ {fuel u t : Nat}, u ∈ tags → Depends reg u t → idxIn tags u < fuel →
      dependsOn reg fuel u t = true := by
  intro fuel
  induction fuel with
  | zero => intro u t _ _ h; omega
  | succ f ih =>
    intro u t hu hdep hfl
    obtain ⟨a, hstep, hrest⟩ := (Relation.TransGen.head'_iff).mp hdep
    obtain ⟨hamem, halt⟩ := htopo u hu a hstep
    simp only [dependsOn, List.any_eq_true]
    refine ⟨a, hstep, ?_⟩
    rcases (Relation.reflTransGen_iff_eq_or_transGen.mp hrest) with rfl | htg
    · simp
    · exact Bool.or_eq_true_iff.mpr (Or.inr (ih hamem htg (by omega)))

/-- In a well-formed box, the fuel used by `mutate` suffices: membership in
the dependents set is decided exactly by `dependsOn`. -/
theorem dependsOn_iff_depends {V : Type} {b : Box V} (hwf : WF b)
    {u t : Nat} (hu : u ∈ b.tags) :
    dependsOn b.registry (b.registry.length + 1) u t = true ↔ Depends b.registry u t := by
  constructor
  · exact dependsOn_sound
  · intro hdep
    have hlt : idxIn b.tags u < b.tags.length := idxIn_lt_length hu
    exact dependsOn_complete hwf.topo hu hdep (by have := hwf.card; omega)

theorem depsOf_eq_nil_of_simple {V : Type} {reg : Registry V} {t : Nat}
    (h : isSimpleB reg t = true) : depsOf reg t = [] := by
  unfold isSimpleB at h
  unfold depsOf
  cases hk : lookupKind reg t with
  | none => rfl
  | some k => cases k <;> simp_all [TagKind.deps]

theorem dependsOn_simple_eq_false {V : Type} {reg : Registry V} {u : Nat}
    (h : isSimpleB reg u = true) (fuel t : Nat) :
    dependsOn reg fuel u t = false := by
  cases fuel with
  | zero => rfl
  | succ f => simp [dependsOn, depsOf_eq_nil_of_simple h]

/-! ### Depth-first traversal lemmas -/

theorem depsOf_eq_of_find {V : Type} {reg : Registry V} {u : Nat} {d : TagDecl V}
    (h : assocFind reg u = some d) : depsOf reg u = d.kind.deps := by
  simp [depsOf, lookupKind, h]

theorem assocFind_isSome_mem {α β : Type} [DecidableEq α] {l : List (α × β)} {a : α}
    (h : (assocFind l a).isSome) : a ∈ l.map Prod.fst := by
  induction l with
  | nil => simp [assocFind] at h
  | cons p rest ih =>
    obtain ⟨k, v⟩ := p
    by_cases hk : k = a
    · simp [hk]
    · simp only [assocFind_cons, if_neg hk, Option.isSome] at h
      simpa using Or.inr (ih h)

/-- The invariant maintained on the finished (`black`) list of the
depth-first traversal: distinct registered tags in leaf-first topological
order. -/
structure BlackInv {V : Type} (reg : Registry V) (black : List Nat) : Prop where
  nodup : black.Nodup
  regd : ∀ t ∈ black, (assocFind reg t).isSome
  topo : topoOk reg black

theorem topoOk_append_one {V : Type} {reg : Registry V} {black : List Nat} {u : Nat}
    (ht : topoOk reg black) (hnm : u ∉ black)
    (hdeps : ∀ a ∈ depsOf reg u, a ∈ black) :
    topoOk reg (black ++ [u]) := by
  intro t htm a ha
  rcases List.mem_append.mp htm with htm | htm
  · obtain ⟨hamem, halt⟩ := ht t htm a ha
    refine ⟨List.mem_append_left _ hamem, ?_⟩
    rw [idxIn_append_left hamem, idxIn_append_left htm]
    exact halt
  · have htu : t = u := by simpa using htm
    subst htu
    have hamem := hdeps a ha
    refine ⟨List.mem_append_left _ hamem, ?_⟩
    rw [idxIn_append_left hamem, idxIn_append_right hnm]
    have := idxIn_lt_length hamem
    simp [idxIn]
    omega

/-- The postcondition of one successful traversal step from gray set
`gray`: the finished list keeps its invariant, is only extended, and the
new entries avoid the current path. -/
def VisitOk {V : Type} (reg : Registry V) (gray black order : List Nat) : Prop :=
  BlackInv reg order ∧ ∃ ext, order = black ++ ext ∧ ∀ x ∈ ext, x ∉ gray

theorem dfsRun_ok_spec {V : Type} {reg : Registry V} {gray : List Nat}
    {step : Nat → List Nat → Except GraphError (List Nat)}
    (hstep : ∀ u black order, BlackInv reg black → step u black = Except.ok order →
      VisitOk reg gray black order ∧ u ∈ order) :
    ∀ pending black order, BlackInv reg black →
      dfsRun step pending black = Except.ok order →
      VisitOk reg gray black order ∧ ∀ t ∈ pending, t ∈ order := by
  intro pending
  induction pending with
  | nil =>
    intro black order hbi hok
    obtain rfl : black = order := by simpa [dfsRun] using hok
    exact ⟨⟨hbi, [], by simp⟩, by simp⟩
  | cons u rest ih =>
    intro black order hbi hok
    unfold dfsRun at hok
    cases hs : step u black with
    | error e => rw [hs] at hok; cases hok
    | ok black2 =>
      rw [hs] at hok
      obtain ⟨⟨hbi2, ext2, hext2, hgr2⟩, humem⟩ := hstep u black black2 hbi hs
      obtain ⟨⟨hbo, ext3, hext3, hgr3⟩, hpend⟩ := ih black2 order hbi2 hok
      refine ⟨⟨hbo, ext2 ++ ext3, by rw [hext3, hext2, List.append_assoc], ?_⟩, ?_⟩
      · intro x hx
        rcases List.mem_append.mp hx with hx | hx
        · exact hgr2 x hx
        · exact hgr3 x hx
      · intro t ht
        rcases List.mem_cons.mp ht with rfl | ht
        · rw [hext3]; exact List.mem_append_left _ humem
        · exact hpend t ht

theorem dfsVisit_ok_spec {V : Type} (reg : Registry V) :
    ∀ fuel u gray black order, BlackInv reg black →
      dfsVisit reg fuel u gray black = Except.ok order →
      VisitOk reg gray black order ∧ u ∈ order := by
  intro fuel
  induction fuel with
  | zero => intro u gray black order _ hok; cases hok
  | succ fuel ih =>
    intro u gray black order hbi hok
    unfold dfsVisit at hok
    split at hok
    · rename_i hub
      obtain rfl : black = order := by simpa using hok
      exact ⟨⟨hbi, [], by simp⟩, hub⟩
    · rename_i hub
      split at hok
      · cases hok
      · rename_i hug
        split at hok
        · cases hok
        · rename_i d hfind
          split at hok
          · cases hok
          · rename_i black2 hrun
            obtain rfl : black2 ++ [u] = order := by simpa using hok
            obtain ⟨⟨hbi2, ext2, hext2, hgr2⟩, hdeps2⟩ :=
              dfsRun_ok_spec (fun a black3 order2 => ih a (u :: gray) black3 order2)
                d.kind.deps black black2 hbi hrun
            have hunb2 : u ∉ black2 := by
              rw [hext2]
              intro hmem
              rcases List.mem_append.mp hmem with hmem | hmem
              · exact hub hmem
              · exact hgr2 u hmem (List.mem_cons_self u gray)
            have hdeps2d : ∀ a ∈ depsOf reg u, a ∈ black2 := by
              rw [depsOf_eq_of_find hfind]; exact hdeps2
            refine ⟨⟨⟨?_, ?_, topoOk_append_one hbi2.topo hunb2 hdeps2d⟩,
              ext2 ++ [u], by rw [hext2, List.append_assoc], ?_⟩, by simp⟩
            · rw [List.nodup_append]
              exact ⟨hbi2.nodup, List.nodup_singleton u, by
                intro x hx hx2
                obtain rfl : x = u := by simpa using hx2
                exact hunb2 hx⟩
            · intro t ht
              rcases List.mem_append.mp ht with ht | ht
              · exact hbi2.regd t ht
              · obtain rfl : t = u := by simpa using ht
                simp [hfind]
            · intro x hx
              rcases List.mem_append.mp hx with hx | hx
              · intro hg; exact hgr2 x hx (List.mem_cons_of_mem u hg)
              · obtain rfl : x = u := by simpa using hx
                exact hug

theorem dfsRun_error_cases
    {step : Nat → List Nat → Except GraphError (List Nat)}
    (hstep : ∀ u black e, step u black = Except.error e →
      e = GraphError.UnresolvedDependency ∨ e = GraphError.CyclicDependency) :
    ∀ pending black e, dfsRun step pending black = Except.error e →
      e = GraphError.UnresolvedDependency ∨ e = GraphError.CyclicDependency := by
  intro pending
  induction pending with
  | nil => intro black e he; simp [dfsRun] at he
  | cons u rest ih =>
    intro black e he
    unfold dfsRun at he
    cases hs : step u black with
    | error e2 =>
      rw [hs] at he
      have : e2 = e := by injection he
      exact this ▸ hstep u black e2 hs
    | ok black2 =>
      rw [hs] at he
      exact ih black2 e he

theorem dfsVisit_error_cases {V : Type} (reg : Registry V) :
    ∀ fuel u gray black e, dfsVisit reg fuel u gray black = Except.error e →
      e = GraphError.UnresolvedDependency ∨ e = GraphError.CyclicDependency := by
  intro fuel
  induction fuel with
  | zero =>
    intro u gray black e he
    exact Or.inr (by injection he with h; exact h.symm)
  | succ fuel ih =>
    intro u gray black e he
    unfold dfsVisit at he
    split at he
    · cases he
    · split at he
      · exact Or.inr (by injection he with h; exact h.symm)
      · split at he
        · exact Or.inl (by injection he with h; exact h.symm)
        · rename_i d hfind
          split at he
          · rename_i e2 hrun
            have h2 : e2 = e := by injection he
            exact h2 ▸ dfsRun_error_cases
              (fun a black3 e3 => ih a (u :: gray) black3 e3) d.kind.deps black e2 hrun
          · cases he

theorem dfsRun_no_unresolved {V : Type} {reg : Registry V}
    {step : Nat → List Nat → Except GraphError (List Nat)}
    (hstep : ∀ u black, (assocFind reg u).isSome = true →
      step u black ≠ Except.error GraphError.UnresolvedDependency) :
    ∀ pending black, (∀ t ∈ pending, (assocFind reg t).isSome = true) →
      dfsRun step pending black ≠ Except.error GraphError.UnresolvedDependency := by
  intro pending
  induction pending with
  | nil => intro black _ h; simp [dfsRun] at h
  | cons u rest ih =>
    intro black hreg h
    unfold dfsRun at h
    cases hs : step u black with
    | error e =>
      rw [hs] at h
      have : e = GraphError.UnresolvedDependency := by injection h
      exact hstep u black (hreg u (List.mem_cons_self u rest)) (this ▸ hs)
    | ok black2 =>
      rw [hs] at h
      exact ih black2 (fun t ht => hreg t (List.mem_cons_of_mem u ht)) h

theorem dfsVisit_no_unresolved {V : Type} {reg : Registry V}
    (hclosed : ∀ t, (assocFind reg t).isSome = true →
      ∀ a ∈ depsOf reg t, (assocFind reg a).isSome = true) :
    ∀ fuel u gray black, (assocFind reg u).isSome = true →
      dfsVisit reg fuel u gray black ≠
        Except.error GraphError.UnresolvedDependency := by
  intro fuel
  induction fuel with
  | zero => intro u gray black _ h; cases h
  | succ fuel ih =>
    intro u gray black hu h
    unfold dfsVisit at h
    split at h
    · cases h
    · split at h
      · cases h
      · split at h
        · rename_i hfind
          simp [hfind] at hu
        · rename_i d hfind
          split at h
          · rename_i e2 hrun
            have he : e2 = GraphError.UnresolvedDependency := by injection h
            refine dfsRun_no_unresolved (fun a black3 => ih a (u :: gray) black3)
              d.kind.deps black ?_ (he ▸ hrun)
            rw [← depsOf_eq_of_find hfind]
            intro a ha
            exact hclosed u (by simp [hfind]) a ha
          · cases h

/-- An empty finished list satisfies the traversal invariant. -/
theorem blackInv_nil {V : Type} (reg : Registry V) : BlackInv reg [] :=
  ⟨List.nodup_nil, by simp, by intro t ht; simp at ht⟩

theorem dfsTraverse_ok_spec {V : Type} {reg : Registry V} {roots order : List Nat}
    (h : dfsTraverse reg roots = Except.ok order) :
    BlackInv reg order ∧ ∀ r ∈ roots, r ∈ order := by
  unfold dfsTraverse at h
  obtain ⟨⟨hbi, _⟩, hpend⟩ := dfsRun_ok_spec
    (fun u black order2 => dfsVisit_ok_spec reg (reg.length + 1) u [] black order2)
    roots [] order (blackInv_nil reg) h
  exact ⟨hbi, hpend⟩

theorem resolve_ok_spec {V : Type} {reg : Registry V} {roots order : List Nat}
    (h : resolve reg roots = Except.ok order) :
    BlackInv reg order ∧ ∀ r ∈ roots, r ∈ order := by
  unfold resolve at h
  cases hdfs : dfsTraverse reg roots with
  | error e => rw [hdfs] at h; cases h
  | ok order2 =>
    rw [hdfs] at h
    by_cases hamb : hasAmbiguousBase reg order2
    · simp [hamb] at h
    · simp only [if_neg hamb] at h
      obtain rfl : order2 = order := by simpa using h
      exact dfsTraverse_ok_spec hdfs

theorem blackInv_card {V : Type} {reg : Registry V} {order : List Nat}
    (h : BlackInv reg order) : order.length ≤ reg.length := by
  have h1 : order.toFinset.card = order.length := List.toFinset_card_of_nodup h.nodup
  have h2 : order.toFinset ⊆ (reg.map Prod.fst).toFinset := by
    intro t ht
    rw [List.mem_toFinset] at ht ⊢
    exact assocFind_isSome_mem (h.regd t ht)
  calc order.length = order.toFinset.card := h1.symm
    _ ≤ (reg.map Prod.fst).toFinset.card := Finset.card_le_card h2
    _ ≤ (reg.map Prod.fst).length := List.toFinset_card_le _
    _ = reg.length := List.length_map _ _

/-- A member of a topologically ordered tag set cannot depend on itself. -/
theorem no_cycle_of_topo {V : Type} {reg : Registry V} {order : List Nat}
    (htopo : topoOk reg order) {t : Nat} (ht : t ∈ order) :
    ¬ Depends reg t t := by
  intro hdep
  obtain ⟨_, hlt⟩ := depends_rank_lt htopo ht hdep
  omega

/-- A dependency-closed set containing a root contains everything reachable
from it. -/
theorem reachable_mem_of_closed {V : Type} {reg : Registry V} {order : List Nat}
    (hclosed : ∀ t ∈ order, ∀ a ∈ depsOf reg t, a ∈ order)
    {r t : Nat} (hr : r ∈ order)
    (h : Relation.ReflTransGen (DepStep reg) r t) : t ∈ order := by
  induction h with
  | refl => exact hr
  | tail hpath hstep ih => exact hclosed _ ih _ hstep

theorem assocFind_eq_some_mem {α β : Type} [DecidableEq α] {l : List (α × β)}
    {a : α} {b : β} (h : assocFind l a = some b) : (a, b) ∈ l := by
  induction l with
  | nil => simp [assocFind] at h
  | cons p rest ih =>
    obtain ⟨k, v⟩ := p
    by_cases hk : k = a
    · subst hk
      simp only [assocFind_cons, if_pos rfl] at h
      obtain rfl : v = b := by simpa using h
      exact List.mem_cons_self _ _
    · simp only [assocFind_cons, if_neg hk] at h
      exact List.mem_cons_of_mem _ (ih h)

theorem hasAmbiguousBase_iff {V : Type} (reg : Registry V) (order : List Nat) :
    hasAmbiguousBase reg order = true ↔
      ∃ t ∈ order, ∃ u ∈ order,
        t ≠ u ∧ baseOf reg t = baseOf reg u ∧ (baseOf reg t).isSome = true := by
  simp only [hasAmbiguousBase, List.any_eq_true, Bool.and_eq_true, beq_iff_eq,
    decide_eq_true_eq]
  constructor
  · rintro ⟨t, ht, u, hu, ⟨hne, heq⟩, hsome⟩
    exact ⟨t, ht, u, hu, hne, heq, hsome⟩
  · rintro ⟨t, ht, u, hu, hne, heq, hsome⟩
    exact ⟨t, ht, u, hu, ⟨hne, heq⟩, hsome⟩

/-! ### Construction lemmas -/

theorem collectOptions_error_of_mem {odecls : List (Nat × OptionBound)}
    {table : List (Nat × ℚ)} {o : Nat} {e : ConstructionError} :
    ∀ {opts : List Nat}, o ∈ opts → validateOption odecls table o = Except.error e →
      ∃ e2, collectOptions odecls table opts = Except.error e2 := by
  intro opts
  induction opts with
  | nil => intro h; cases h
  | cons o2 rest ih =>
    intro hmem hval
    rcases List.mem_cons.mp hmem with rfl | hmem
    · exact ⟨e, by simp [collectOptions, hval]⟩
    · cases hv2 : validateOption odecls table o2 with
      | error e2 => exact ⟨e2, by simp [collectOptions, hv2]⟩
      | ok v2 =>
        obtain ⟨e2, he2⟩ := ih hmem hval
        exact ⟨e2, by simp [collectOptions, hv2, he2]⟩

theorem constructSlots_error_of_mem {V : Type} [Inhabited V] {reg : Registry V}
    {odecls : List (Nat × OptionBound)} {table : List (Nat × ℚ)}
    {ext : List (Nat × V)} {t : Nat} {e : ConstructionError}
    (hinit : initSlot reg odecls table ext t = Except.error e) :
    ∀ {order : List Nat}, t ∈ order → ∀ val dty,
      ∃ e2, constructSlots reg odecls table ext order val dty = Except.error e2 := by
  intro order
  induction order with
  | nil => intro h; cases h
  | cons t2 rest ih =>
    intro hmem val dty
    rcases List.mem_cons.mp hmem with rfl | hmem
    · exact ⟨e, by simp [constructSlots, hinit]⟩
    · cases hi2 : initSlot reg odecls table ext t2 with
      | error e2 => exact ⟨e2, by simp [constructSlots, hi2]⟩
      | ok vd =>
        obtain ⟨v2, d2⟩ := vd
        obtain ⟨e2, he2⟩ := ih hmem
          (fun u => if u = t2 then v2 else val u)
          (fun u => if u = t2 then d2 else dty u)
        exact ⟨e2, by simp [constructSlots, hi2]; exact he2⟩

theorem initSlot_dirty {V : Type} [Inhabited V] {reg : Registry V}
    {odecls : List (Nat × OptionBound)} {table : List (Nat × ℚ)}
    {ext : List (Nat × V)} {t : Nat} {v : V} {d : Bool}
    (h : initSlot reg odecls table ext t = Except.ok (v, d)) :
    d = isComputeB reg t := by
  unfold initSlot at h
  split at h
  · cases h
  · rename_i heq
    split at h
    · cases h
    · simp only [Except.ok.injEq, Prod.mk.injEq] at h
      simp [isComputeB, heq, h.2.symm]
  · rename_i opts create heq
    split at h
    · cases h
    · simp only [Except.ok.injEq, Prod.mk.injEq] at h
      simp [isComputeB, heq, h.2.symm]
  · rename_i args f heq
    simp only [Except.ok.injEq, Prod.mk.injEq] at h
    simp [isComputeB, heq, h.2.symm]

theorem constructSlots_ok_spec {V : Type} [Inhabited V] {reg : Registry V}
    {odecls : List (Nat × OptionBound)} {table : List (Nat × ℚ)}
    {ext : List (Nat × V)} :
    ∀ {order : List Nat}, order.Nodup →
      ∀ {val : Nat → V} {dty : Nat → Bool} {val2 : Nat → V} {dty2 : Nat → Bool},
        constructSlots reg odecls table ext order val dty = Except.ok (val2, dty2) →
        (∀ t ∈ order, ∃ v d, initSlot reg odecls table ext t = Except.ok (v, d) ∧
          val2 t = v ∧ dty2 t = d) ∧
        ∀ u, u ∉ order → val2 u = val u ∧ dty2 u = dty u := by
  intro order
  induction order with
  | nil =>
    intro _ val dty val2 dty2 h
    simp only [constructSlots, Except.ok.injEq, Prod.mk.injEq] at h
    obtain ⟨rfl, rfl⟩ := h
    exact ⟨by simp, fun u _ => ⟨rfl, rfl⟩⟩
  | cons t rest ih =>
    intro hnd val dty val2 dty2 h
    have hnd2 : rest.Nodup := (List.nodup_cons.mp hnd).2
    have htr : t ∉ rest := (List.nodup_cons.mp hnd).1
    cases hi : initSlot reg odecls table ext t with
    | error e => simp [constructSlots, hi] at h
    | ok vd =>
      obtain ⟨v, d⟩ := vd
      simp only [constructSlots, hi] at h
      obtain ⟨hmem, hout⟩ := ih hnd2 h
      constructor
      · intro t2 ht2
        rcases List.mem_cons.mp ht2 with rfl | ht2
        · obtain ⟨hv2, hd2⟩ := hout t2 htr
          exact ⟨v, d, hi, by simp [hv2], by simp [hd2]⟩
        · exact hmem t2 ht2
      · intro u hu
        have hut : u ≠ t := fun he => hu (he ▸ List.mem_cons_self t rest)
        have hur : u ∉ rest := fun hm => hu (List.mem_cons_of_mem t hm)
        obtain ⟨hv2, hd2⟩ := hout u hur
        exact ⟨by simp [hv2, hut], by simp [hd2, hut]⟩

/-- A successfully constructed box satisfies the state invariant: the tag
set is well-formed, simple slots are clean, compute slots start dirty (so
the caching invariant holds vacuously). -/
theorem construct_ok_inv {V : Type} [Inhabited V] {reg : Registry V}
    {odecls : List (Nat × OptionBound)} {roots : List Nat}
    {table : List (Nat × ℚ)} {ext : List (Nat × V)} {b : Box V}
    (h : construct reg odecls roots table ext = Except.ok b) :
    Inv b ∧ b.registry = reg ∧
      (∀ t ∈ b.tags, isComputeB reg t = true → b.dirty t = true) := by
  unfold construct at h
  split at h
  · cases h
  · rename_i order hres
    split at h
    · cases h
    · rename_i p val2 dty2 hcs
      obtain rfl : b = ⟨reg, order, val2, dty2⟩ := by
        have := h
        simp only [Except.ok.injEq] at this
        exact this.symm
      obtain ⟨hbi, _⟩ := resolve_ok_spec hres
      obtain ⟨hmem, _⟩ := constructSlots_ok_spec hbi.nodup hcs
      have hdirty : ∀ t ∈ order, dty2 t = isComputeB reg t := by
        intro t ht
        obtain ⟨v, d, hi, _, hd⟩ := hmem t ht
        rw [hd]
        exact initSlot_dirty hi
      refine ⟨⟨⟨hbi.topo, hbi.regd, hbi.nodup, blackInv_card hbi⟩, ?_, ?_⟩, rfl, ?_⟩
      · intro t ht hnc
        show dty2 t = false
        rw [hdirty t ht, hnc]
      · intro t ht hdf args f hk
        exfalso
        have hcb : isComputeB reg t = true := by simp [isComputeB, hk]
        have h1 : dty2 t = true := (hdirty t ht).trans hcb
        exact Bool.noConfusion (h1.symm.trans hdf)
      · intro t ht hc
        show dty2 t = true
        rw [hdirty t ht, hc]

/-! ### Reading: state-preservation and memoization lemmas -/

theorem depsOf_of_kind {V : Type} {reg : Registry V} {t : Nat} {k : TagKind V}
    (h : lookupKind reg t = some k) : depsOf reg t = k.deps := by
  simp [depsOf, h]

theorem isComputeB_of_kind {V : Type} {reg : Registry V} {t : Nat}
    {args : List Nat} {f : List V → V}
    (h : lookupKind reg t = some (TagKind.Compute args f)) :
    isComputeB reg t = true := by
  simp [isComputeB, h]

theorem exists_kind_of_isComputeB {V : Type} {reg : Registry V} {t : Nat}
    (h : isComputeB reg t = true) :
    ∃ args f, lookupKind reg t = some (TagKind.Compute args f) := by
  unfold isComputeB at h
  cases hlk : lookupKind reg t with
  | none => rw [hlk] at h; cases h
  | some k =>
    rw [hlk] at h
    cases k with
    | SimpleExternal => cases h
    | SimpleFromOptions opts create => cases h
    | Compute args f => exact ⟨args, f, rfl⟩

theorem isSimpleB_of_mem_not_compute {V : Type} {b : Box V} (hwf : WF b)
    {t : Nat} (hmem : t ∈ b.tags) (h : isComputeB b.registry t = false) :
    isSimpleB b.registry t = true := by
  have hreg := hwf.regd t hmem
  obtain ⟨d, hd⟩ := Option.isSome_iff_exists.mp hreg
  have hlk : lookupKind b.registry t = some d.kind := by
    simp [lookupKind, hd]
  cases hk : d.kind with
  | SimpleExternal => simp [isSimpleB, hlk, hk]
  | SimpleFromOptions opts create => simp [isSimpleB, hlk, hk]
  | Compute args f => rw [hk] at hlk; rw [isComputeB_of_kind hlk] at h; cases h

theorem not_isSimpleB_of_isComputeB {V : Type} {reg : Registry V} {t : Nat}
    (h : isComputeB reg t = true) : isSimpleB reg t = false := by
  obtain ⟨args, f, hlk⟩ := exists_kind_of_isComputeB h
  simp [isSimpleB, hlk]

theorem WF_of_eq {V : Type} {b b2 : Box V} (h : WF b)
    (hreg : b2.registry = b.registry) (htags : b2.tags = b.tags) : WF b2 := by
  refine ⟨?_, ?_, ?_, ?_⟩
  · rw [hreg, htags]; exact h.topo
  · rw [hreg, htags]; exact h.regd
  · rw [htags]; exact h.nodup
  · rw [hreg, htags]; exact h.card

@[simp]
theorem setSlot_registry {V : Type} (b : Box V) (t : Nat) (v : V) :
    (setSlot b t v).registry = b.registry := rfl

@[simp]
theorem setSlot_tags {V : Type} (b : Box V) (t : Nat) (v : V) :
    (setSlot b t v).tags = b.tags := rfl

@[simp]
theorem setSlot_value_self {V : Type} (b : Box V) (t : Nat) (v : V) :
    (setSlot b t v).value t = v := by simp [setSlot]

theorem setSlot_value_of_ne {V : Type} (b : Box V) {t u : Nat} (v : V)
    (h : u ≠ t) : (setSlot b t v).value u = b.value u := by simp [setSlot, h]

@[simp]
theorem setSlot_dirty_self {V : Type} (b : Box V) (t : Nat) (v : V) :
    (setSlot b t v).dirty t = false := by simp [setSlot]

theorem setSlot_dirty_of_ne {V : Type} (b : Box V) {t u : Nat} (v : V)
    (h : u ≠ t) : (setSlot b t v).dirty u = b.dirty u := by simp [setSlot, h]

theorem GetPost.refl {V : Type} (b : Box V) : GetPost b b :=
  ⟨rfl, rfl, fun _ h => ⟨rfl, h⟩, fun _ _ => ⟨rfl, rfl⟩⟩

theorem GetPost.comp {V : Type} {a b c : Box V}
    (h1 : GetPost a b) (h2 : GetPost b c) : GetPost a c := by
  refine ⟨h2.reg.trans h1.reg, h2.tags.trans h1.tags, ?_, ?_⟩
  · intro u hu
    obtain ⟨hv1, hd1⟩ := h1.clean u hu
    obtain ⟨hv2, hd2⟩ := h2.clean u hd1
    exact ⟨hv2.trans hv1, hd2⟩
  · intro u hu
    obtain ⟨hv1, hd1⟩ := h1.simple u hu
    have hu2 : isComputeB b.registry u = false := by rw [h1.reg]; exact hu
    obtain ⟨hv2, hd2⟩ := h2.simple u hu2
    exact ⟨hv2.trans hv1, hd2.trans hd1⟩

theorem getOne_eq_none {V : Type} [Inhabited V] {b : Box V} {t : Nat} (fuel : Nat)
    (hlk : lookupKind b.registry t = none) :
    getOne (fuel + 1) b t = ⟨b.value t, b, []⟩ := by
  unfold getOne; rw [hlk]

theorem getOne_eq_simpleExt {V : Type} [Inhabited V] {b : Box V} {t : Nat} (fuel : Nat)
    (hlk : lookupKind b.registry t = some TagKind.SimpleExternal) :
    getOne (fuel + 1) b t = ⟨b.value t, b, []⟩ := by
  unfold getOne; rw [hlk]

theorem getOne_eq_simpleOpt {V : Type} [Inhabited V] {b : Box V} {t : Nat} (fuel : Nat)
    {opts : List Nat} {create : List ℚ → V}
    (hlk : lookupKind b.registry t = some (TagKind.SimpleFromOptions opts create)) :
    getOne (fuel + 1) b t = ⟨b.value t, b, []⟩ := by
  unfold getOne; rw [hlk]

theorem getOne_eq_clean {V : Type} [Inhabited V] {b : Box V} {t : Nat} (fuel : Nat)
    {args : List Nat} {f : List V → V}
    (hlk : lookupKind b.registry t = some (TagKind.Compute args f))
    (hd : b.dirty t = false) :
    getOne (fuel + 1) b t = ⟨b.value t, b, []⟩ := by
  unfold getOne; rw [hlk, hd]; exact rfl

theorem getOne_eq_dirty {V : Type} [Inhabited V] {b : Box V} {t : Nat} (fuel : Nat)
    {args : List Nat} {f : List V → V}
    (hlk : lookupKind b.registry t = some (TagKind.Compute args f))
    (hd : b.dirty t = true) :
    getOne (fuel + 1) b t =
      ⟨f (getRun (getOne fuel) b args).values,
        setSlot (getRun (getOne fuel) b args).box t
          (f (getRun (getOne fuel) b args).values),
        (getRun (getOne fuel) b args).log ++ [t]⟩ := by
  unfold getOne; rw [hlk, hd]; exact rfl

/-- The specification of a read that leaves the box untouched (a simple
tag, an unregistered tag, or a clean compute tag). -/
theorem stepSpec_noop {V : Type} {b : Box V} {t : Nat} (hinv : Inv b)
    (hcl : isComputeB b.registry t = true → b.dirty t = false) :
    StepSpec b t ⟨b.value t, b, []⟩ := by
  refine ⟨GetPost.refl b, hinv, hcl, rfl, by simp, ?_, List.nodup_nil, by simp⟩
  intro u h1 h2
  rw [h1] at h2
  cases h2

/-- Reading a list of tags with a reader satisfying `StepSpec` satisfies
`RunSpec`: state threading preserves the invariant, the returned values are
the final stored values, and the logs concatenate disjointly. -/
theorem getRun_spec {V : Type} [Inhabited V] {n : Nat} {step : Box V → Nat → GetOne V}
    (hstep : GoodStep n step) :
    ∀ (ts : List Nat) (b : Box V), Inv b →
      (∀ t ∈ ts, t ∈ b.tags ∧ idxIn b.tags t < n) →
      RunSpec b ts (getRun step b ts) := by
  intro ts
  induction ts with
  | nil =>
    intro b hinv _
    show RunSpec b [] ⟨[], b, []⟩
    refine ⟨GetPost.refl b, hinv, rfl, by simp, by simp, ?_, List.nodup_nil, by simp⟩
    intro u h1 h2
    rw [h1] at h2
    cases h2
  | cons t rest ih =>
    intro b hinv hts
    obtain ⟨htmem, htidx⟩ := hts t (List.mem_cons_self t rest)
    have S1 : StepSpec b t (step b t) := hstep b t hinv htmem htidx
    have hrest : ∀ t2 ∈ rest, t2 ∈ (step b t).box.tags ∧
        idxIn (step b t).box.tags t2 < n := by
      intro t2 ht2
      obtain ⟨hm, hi⟩ := hts t2 (List.mem_cons_of_mem t ht2)
      rw [S1.post.tags]
      exact ⟨hm, hi⟩
    have S2 : RunSpec (step b t).box rest (getRun step (step b t).box rest) :=
      ih _ S1.inv hrest
    show RunSpec b (t :: rest)
      ⟨(step b t).value :: (getRun step (step b t).box rest).values,
        (getRun step (step b t).box rest).box,
        (step b t).log ++ (getRun step (step b t).box rest).log⟩
    have hv : (step b t).value = (getRun step (step b t).box rest).box.value t := by
      rw [S1.val]
      by_cases hct : isComputeB b.registry t = true
      · exact (S2.post.clean t (S1.cleaned hct)).1.symm
      · have hct2 : isComputeB (step b t).box.registry t = false := by
          rw [S1.post.reg]
          simpa using hct
        exact (S2.post.simple t hct2).1.symm
    refine ⟨S1.post.comp S2.post, S2.inv, ?_, ?_, ?_, ?_, ?_, ?_⟩
    · show _ :: _ = _ :: _
      rw [hv, S2.values]
    · intro t2 ht2 hc2
      rcases List.mem_cons.mp ht2 with rfl | ht2
      · exact (S2.post.clean t2 (S1.cleaned hc2)).2
      · refine S2.cleaned t2 ht2 ?_
        rw [S1.post.reg]
        exact hc2
    · intro u hu
      rcases List.mem_append.mp hu with hu | hu
      · obtain ⟨h1, h2, h3⟩ := S1.logElems u hu
        exact ⟨h1, h2, t, List.mem_cons_self t rest, h3⟩
      · obtain ⟨h1, h2, t2, ht2, h3⟩ := S2.logElems u hu
        have hbd : b.dirty u = true := by
          by_contra hby
          have hbf : b.dirty u = false := by simpa using hby
          exact Bool.noConfusion ((S1.post.clean u hbf).2.symm.trans h2)
        refine ⟨by rw [S1.post.reg] at h1; exact h1, hbd,
          t2, List.mem_cons_of_mem t ht2, ?_⟩
        rw [S1.post.tags] at h3
        exact h3
    · intro u hdu hcu
      cases hru : (step b t).box.dirty u with
      | false => exact List.mem_append_left _ (S1.logComplete u hdu hru)
      | true => exact List.mem_append_right _ (S2.logComplete u hru hcu)
    · rw [List.nodup_append]
      refine ⟨S1.logNodup, S2.logNodup, ?_⟩
      intro x hx1 hx2
      have hcl := S1.logCleaned x hx1
      obtain ⟨_, hd2, _⟩ := S2.logElems x hx2
      exact Bool.noConfusion (hcl.symm.trans hd2)
    · intro u hu
      rcases List.mem_append.mp hu with hu | hu
      · exact (S2.post.clean u (S1.logCleaned u hu)).2
      · exact S2.logCleaned u hu

/-- The memoizing reader `getOne` satisfies its specification at every
fuel: reading any tag of rank below the fuel preserves the invariant,
cleans exactly the dirty compute tags it had to recompute, logs each of
them once, and returns the stored value. -/
theorem getOne_spec {V : Type} [Inhabited V] :
    ∀ fuel : Nat, GoodStep fuel (getOne fuel : Box V → Nat → GetOne V) := by
  intro fuel
  induction fuel with
  | zero => intro b t _ _ hidx; omega
  | succ fuel ih =>
    intro b t hinv htmem htidx
    cases hlk : lookupKind b.registry t with
    | none =>
      rw [getOne_eq_none fuel hlk]
      refine stepSpec_noop hinv ?_
      intro hc
      obtain ⟨args, f, hlk2⟩ := exists_kind_of_isComputeB hc
      rw [hlk] at hlk2
      cases hlk2
    | some k =>
      cases k with
      | SimpleExternal =>
        rw [getOne_eq_simpleExt fuel hlk]
        refine stepSpec_noop hinv ?_
        intro hc
        obtain ⟨args, f, hlk2⟩ := exists_kind_of_isComputeB hc
        rw [hlk] at hlk2
        cases hlk2
      | SimpleFromOptions opts create =>
        rw [getOne_eq_simpleOpt fuel hlk]
        refine stepSpec_noop hinv ?_
        intro hc
        obtain ⟨args, f, hlk2⟩ := exists_kind_of_isComputeB hc
        rw [hlk] at hlk2
        cases hlk2
      | Compute args f =>
        cases hd : b.dirty t with
        | false =>
          rw [getOne_eq_clean fuel hlk hd]
          exact stepSpec_noop hinv (fun _ => hd)
        | true =>
          rw [getOne_eq_dirty fuel hlk hd]
          have hdeps : depsOf b.registry t = args := by
            rw [depsOf_of_kind hlk]
            rfl
          have hargs : ∀ a ∈ args, a ∈ b.tags ∧ idxIn b.tags a < fuel := by
            intro a ha
            obtain ⟨ham, hal⟩ := hinv.1.topo t htmem a (hdeps ▸ ha)
            exact ⟨ham, by omega⟩
          have hargrank : ∀ a ∈ args, idxIn b.tags a < idxIn b.tags t := by
            intro a ha
            exact (hinv.1.topo t htmem a (hdeps ▸ ha)).2
          have Sa : RunSpec b args (getRun (getOne fuel) b args) :=
            getRun_spec ih args b hinv hargs
          set ra := getRun (getOne fuel) b args with hra
          have htra : t ∉ ra.log := by
            intro hmem2
            obtain ⟨_, _, a, hamem, hle⟩ := Sa.logElems t hmem2
            have := hargrank a hamem
            omega
          have hdra : ra.box.dirty t = true := by
            by_contra hby
            have hbf : ra.box.dirty t = false := by simpa using hby
            exact htra (Sa.logComplete t hd hbf)
          have hcompt : isComputeB b.registry t = true := isComputeB_of_kind hlk
          have hlkra : lookupKind ra.box.registry t = some (TagKind.Compute args f) := by
            rw [Sa.post.reg]; exact hlk
          set v := f ra.values with hvdef
          set b2 := setSlot ra.box t v with hb2
          have hpost2 : GetPost ra.box b2 := by
            refine ⟨rfl, rfl, ?_, ?_⟩
            · intro u hu
              have hune : u ≠ t := by
                intro he
                rw [he] at hu
                exact Bool.noConfusion (hu.symm.trans hdra)
              exact ⟨setSlot_value_of_ne _ _ hune, by
                rw [setSlot_dirty_of_ne _ _ hune]; exact hu⟩
            · intro u hnc
              have hune : u ≠ t := by
                intro he
                rw [he] at hnc
                exact Bool.noConfusion ((isComputeB_of_kind hlkra).symm.trans hnc)
              exact ⟨setSlot_value_of_ne _ _ hune, setSlot_dirty_of_ne _ _ hune⟩
          have hSCa := Sa.inv.2.1
          have hCOa := Sa.inv.2.2
          have hargne : ∀ a ∈ args, a ≠ t := by
            intro a ha he
            have := hargrank a ha
            rw [he] at this
            omega
          have hargclean2 : ∀ a ∈ args, b2.dirty a = false := by
            intro a ha
            rw [hb2, setSlot_dirty_of_ne _ _ (hargne a ha)]
            cases hca : isComputeB b.registry a with
            | true => exact Sa.cleaned a ha hca
            | false =>
              refine hSCa a ?_ ?_
              · rw [Sa.post.tags]; exact (hargs a ha).1
              · rw [Sa.post.reg]; exact hca
          have hinv2 : Inv b2 := by
            refine ⟨WF_of_eq hinv.1 (by rw [hb2, setSlot_registry, Sa.post.reg])
              (by rw [hb2, setSlot_tags, Sa.post.tags]), ?_, ?_⟩
            · intro u hmem2 hnc
              have hune : u ≠ t := by
                intro he
                rw [he] at hnc
                have : isComputeB b2.registry t = true := by
                  rw [hb2, setSlot_registry]
                  exact isComputeB_of_kind hlkra
                exact Bool.noConfusion (this.symm.trans hnc)
              rw [hb2, setSlot_dirty_of_ne _ _ hune]
              exact hSCa u hmem2 hnc
            · intro u hmem2 hcln args2 f2 hlk2
              by_cases hut : u = t
              · subst hut
                have hlk3 : lookupKind ra.box.registry u = some (TagKind.Compute args2 f2) := hlk2
                rw [hlkra] at hlk3
                obtain ⟨hargs2, hf2⟩ : args = args2 ∧ f = f2 := by
                  have := Option.some.inj hlk3
                  exact ⟨(TagKind.Compute.inj this).1, (TagKind.Compute.inj this).2⟩
                subst hargs2
                subst hf2
                refine ⟨fun a ha => hargclean2 a ha, ?_⟩
                have hvt : b2.value u = v := by rw [hb2]; exact setSlot_value_self _ _ _
                have hmap : args.map b2.value = args.map ra.box.value := by
                  refine List.map_congr_left ?_
                  intro a ha
                  rw [hb2]
                  exact setSlot_value_of_ne _ _ (hargne a ha)
                rw [hvt, hmap, hvdef, Sa.values]
              · have hclra : ra.box.dirty u = false := by
                  rw [hb2, setSlot_dirty_of_ne _ _ hut] at hcln
                  exact hcln
                have hmemra : u ∈ ra.box.tags := by
                  rw [hb2, setSlot_tags] at hmem2
                  exact hmem2
                obtain ⟨hargsclean, hval⟩ := hCOa u hmemra hclra args2 f2 hlk2
                have htnotin : t ∉ args2 := by
                  intro hta
                  exact Bool.noConfusion ((hargsclean t hta).symm.trans hdra)
                have hane : ∀ a ∈ args2, a ≠ t := by
                  intro a ha he
                  exact htnotin (he ▸ ha)
                refine ⟨?_, ?_⟩
                · intro a ha
                  rw [hb2, setSlot_dirty_of_ne _ _ (hane a ha)]
                  exact hargsclean a ha
                · have hmap : args2.map b2.value = args2.map ra.box.value := by
                    refine List.map_congr_left ?_
                    intro a ha
                    rw [hb2]
                    exact setSlot_value_of_ne _ _ (hane a ha)
                  rw [hb2, setSlot_value_of_ne _ _ hut, hb2] at *
                  rw [hmap]
                  exact hval
          refine ⟨Sa.post.comp hpost2, hinv2, ?_, ?_, ?_, ?_, ?_, ?_⟩
          · intro _
            rw [hb2]
            exact setSlot_dirty_self _ _ _
          · show v = b2.value t
            rw [hb2, setSlot_value_self]
          · intro u hu
            rcases List.mem_append.mp hu with hu | hu
            · obtain ⟨h1, h2, a, hamem, hle⟩ := Sa.logElems u hu
              have := hargrank a hamem
              exact ⟨h1, h2, by omega⟩
            · obtain rfl : u = t := by simpa using hu
              exact ⟨hcompt, hd, le_refl _⟩
          · intro u hdu hcu
            by_cases hut : u = t
            · subst hut
              exact List.mem_append_right _ (by simp)
            · rw [hb2, setSlot_dirty_of_ne _ _ hut] at hcu
              exact List.mem_append_left _ (Sa.logComplete u hdu hcu)
          · rw [List.nodup_append]
            refine ⟨Sa.logNodup, List.nodup_singleton t, ?_⟩
            intro x hx1 hx2
            obtain rfl : x = t := by simpa using hx2
            exact htra hx1
          · intro u hu
            by_cases hut : u = t
            · subst hut
              rw [hb2]
              exact setSlot_dirty_self _ _ _
            · rcases List.mem_append.mp hu with hu | hu
              · rw [hb2, setSlot_dirty_of_ne _ _ hut]
                exact Sa.logCleaned u hu
              · obtain rfl : u = t := by simpa using hu
                exact absurd rfl hut

/-- `get` satisfies the read specification on every tag of a well-formed
box (the fuel `registry.length + 1` always exceeds the tag's rank). -/
theorem get_spec {V : Type} [Inhabited V] {b : Box V} {t : Nat}
    (hinv : Inv b) (hmem : t ∈ b.tags) : StepSpec b t (get b t) := by
  have hidx : idxIn b.tags t < b.registry.length + 1 := by
    have h1 := idxIn_lt_length hmem
    have h2 := hinv.1.card
    omega
  exact getOne_spec (b.registry.length + 1) b t hinv hmem hidx

/-! ### Mutation lemmas -/

theorem mutate_some_spec {V : Type} {b b2 : Box V} {t : Nat} {fn : V → V}
    (h : mutate b t fn = some b2) :
    isSimpleB b.registry t = true ∧ b2.registry = b.registry ∧ b2.tags = b.tags ∧
      b2.value t = fn (b.value t) ∧ (∀ u, u ≠ t → b2.value u = b.value u) ∧
      ∀ u, b2.dirty u =
        if dependsOn b.registry (b.registry.length + 1) u t then true
        else b.dirty u := by
  unfold mutate at h
  split at h
  · rename_i hs
    injection h with h2
    subst h2
    exact ⟨hs, rfl, rfl, by simp, fun u hu => by simp [hu], fun u => rfl⟩
  · cases h

theorem mutate_none_iff {V : Type} {b : Box V} {t : Nat} (fn : V → V) :
    mutate b t fn = none ↔ isSimpleB b.registry t = false := by
  unfold mutate
  split
  · rename_i hs
    simp [hs]
  · rename_i hs
    simpa using hs

/-- Mutation of a simple tag preserves the box invariant: the dependents
marking is exactly wide enough to keep every clean compute slot
coherent. -/
theorem mutate_inv {V : Type} {b b2 : Box V} {t : Nat} {fn : V → V}
    (hinv : Inv b) (h : mutate b t fn = some b2) : Inv b2 := by
  obtain ⟨hs, hreg, htags, hvt, hvne, hdirty⟩ := mutate_some_spec h
  obtain ⟨hwf, hsc, hco⟩ := hinv
  refine ⟨WF_of_eq hwf hreg htags, ?_, ?_⟩
  · intro u hmem hnc
    rw [htags] at hmem
    rw [hreg] at hnc
    have hsu : isSimpleB b.registry u = true := isSimpleB_of_mem_not_compute hwf hmem hnc
    rw [hdirty u, dependsOn_simple_eq_false hsu]
    exact hsc u hmem hnc
  · intro u hmem hcln args f hlk
    rw [htags] at hmem
    rw [hreg] at hlk
    rw [hdirty u] at hcln
    have hdepu : dependsOn b.registry (b.registry.length + 1) u t = false := by
      by_contra hby
      rw [Bool.not_eq_false] at hby
      rw [hby] at hcln
      cases hcln
    rw [if_neg (by simp [hdepu])] at hcln
    obtain ⟨hargsclean, hval⟩ := hco u hmem hcln args f hlk
    have hdeps : depsOf b.registry u = args := by
      rw [depsOf_of_kind hlk]; rfl
    have hnodep : ¬ Depends b.registry u t := by
      intro hdep
      have hfuel : idxIn b.tags u < b.registry.length + 1 := by
        have h1 := idxIn_lt_length hmem
        have h2 := hwf.card
        omega
      have := dependsOn_complete hwf.topo hmem hdep hfuel
      exact Bool.noConfusion (hdepu.symm.trans this)
    have hargne : ∀ a ∈ args, a ≠ t := by
      intro a ha he
      refine hnodep (Relation.TransGen.single ?_)
      show DepStep b.registry u t
      unfold DepStep
      rw [hdeps, ← he]
      exact ha
    have hargnodep : ∀ a ∈ args, dependsOn b.registry (b.registry.length + 1) a t = false := by
      intro a ha
      by_contra hby
      rw [Bool.not_eq_false] at hby
      refine hnodep (Relation.TransGen.head ?_ (dependsOn_sound hby))
      show DepStep b.registry u a
      unfold DepStep
      rw [hdeps]
      exact ha
    refine ⟨?_, ?_⟩
    · intro a ha
      rw [hdirty a, hargnodep a ha]
      simpa using hargsclean a ha
    · have hmap : args.map b2.value = args.map b.value := by
        refine List.map_congr_left ?_
        intro a ha
        exact hvne a (hargne a ha)
      have hune : u ≠ t := by
        intro he
        have hcb : isComputeB b.registry u = true := isComputeB_of_kind hlk
        rw [he] at hcb
        exact Bool.noConfusion ((not_isSimpleB_of_isComputeB hcb).symm.trans hs)
      rw [hvne u hune, hmap]
      exact hval

/-- Reading a dirty compute tag invokes its function exactly once, caches
the result, and a second read returns the identical cached value with no
further invocation. -/
theorem get_twice_dirty_compute {V : Type} [Inhabited V] {b : Box V} {t : Nat}
    (hinv : Inv b) (hmem : t ∈ b.tags)
    (hc : isComputeB b.registry t = true) (hd : b.dirty t = true) :
    (get b t).log.count t = 1 ∧
      get (get b t).box t = ⟨(get b t).box.value t, (get b t).box, []⟩ ∧
      (get b t).value = (get b t).box.value t := by
  have S := get_spec hinv hmem
  have htin : t ∈ (get b t).log := S.logComplete t hd (S.cleaned hc)
  have hcount : (get b t).log.count t = 1 :=
    List.count_eq_one_of_mem S.logNodup htin
  refine ⟨hcount, ?_, S.val⟩
  obtain ⟨args, f, hlk⟩ := exists_kind_of_isComputeB hc
  have hlk1 : lookupKind (get b t).box.registry t = some (TagKind.Compute args f) := by
    rw [S.post.reg]; exact hlk
  have hcln : (get b t).box.dirty t = false := S.cleaned hc
  show getOne ((get b t).box.registry.length + 1) (get b t).box t = _
  exact getOne_eq_clean _ hlk1 hcln

/-! ### Concrete example registries used by the witnesses -/

/-- A cyclic registry: tag 0 depends on tag 1 and tag 1 depends on tag 0
(the `X → Y → X` scenario of the spec). -/
def demoCycleReg : Registry Int :=
  [(0, ⟨TagKind.Compute [1] (fun _ => 0), none⟩),
   (1, ⟨TagKind.Compute [0] (fun _ => 0), none⟩)]

/-- A registry in which two distinct concrete compute tags (mirroring
`ParticlePositionVelocityCompute` and
`EvolvedParticlePositionVelocityCompute`) both declare base tag 0
(mirroring `ParticlePositionVelocity`). -/
def demoAmbReg : Registry Int :=
  [(1, ⟨TagKind.Compute [] (fun _ => 1), some 0⟩),
   (2, ⟨TagKind.Compute [] (fun _ => 2), some 0⟩)]

/-- A registry with one option-constructed simple tag 5 whose declared
option tag 7 mirrors `Mass` (a `double` option with `lower_bound() = 0`). -/
def demoMassReg : Registry ℚ :=
  [(5, ⟨TagKind.SimpleFromOptions [7] (fun vs => vs.getD 0 0), none⟩)]

/-- The option-bound declaration of option tag 7: lower bound `0`, no upper
bound - the bound metadata of `Mass`. -/
def demoMassOdecls : List (Nat × OptionBound) := [(7, ⟨some 0, none⟩)]

/-- The diamond registry over `Int`: simple tag 0 feeds compute tags 1 and
2, and compute tag 3 depends on both 1 and 2. -/
def demoDiamondReg : Registry Int :=
  diamondReg (fun vs => vs.getD 0 0 + 1) (fun vs => 2 * vs.getD 0 0)
    (fun vs => vs.getD 0 0 + vs.getD 1 0)

/-- The box constructed over the diamond registry with the simple tag 0
externally supplied as `5`. -/
def demoDiamondBox : Box Int :=
  (construct demoDiamondReg [] [3] [] [(0, 5)]).toOption.getD
    ⟨[], [], fun _ => 0, fun _ => false⟩

/-- The diamond box after mutating its simple tag 0. -/
def demoMutatedBox : Box Int :=
  (mutate demoDiamondBox 0 (fun v => v + 1)).getD demoDiamondBox

/-- The diamond registry extended by an unrelated simple tag 4 feeding an
unrelated compute tag 5. -/
def demoFrameReg : Registry Int :=
  demoDiamondReg ++
    [(4, ⟨TagKind.SimpleExternal, none⟩),
     (5, ⟨TagKind.Compute [4] (fun vs => vs.getD 0 0 * 3), none⟩)]

/-- The box constructed over the extended registry, with both simple tags
externally supplied. -/
def demoFrameBox : Box Int :=
  (construct demoFrameReg [] [3, 5] [] [(0, 5), (4, 7)]).toOption.getD
    ⟨[], [], fun _ => 0, fun _ => false⟩

/-- The extended box after reading the unrelated compute tag 5, whose slot
is then clean. -/
def demoFrameClean : Box Int := (get demoFrameBox 5).box

/-- The clean extended box after mutating simple tag 0, on which tag 5 does
not depend. -/
def demoFrameMut : Box Int :=
  (mutate demoFrameClean 0 (fun v => v + 1)).getD demoFrameClean

/-! ## Claim theorems: graph construction errors -/

/-- **C5**: For every tag set whose dependency relation contains a cycle
(e.g., X depends on Y and Y depends on X), `resolve` fails with
`CyclicDependency` before any box is constructed, and no box is produced
from that tag set. -/
theorem cycle_rejection {V : Type} [Inhabited V] (reg : Registry V) (roots : List Nat)
    (hclosed : ∀ p ∈ reg, ∀ a ∈ depsOf reg p.1, (assocFind reg a).isSome = true)
    (hroots : ∀ r ∈ roots, (assocFind reg r).isSome = true)
    (hcyc : ∃ t, ReachableFrom reg roots t ∧ Depends reg t t) :
    resolve reg roots = Except.error GraphError.CyclicDependency ∧
      ∀ odecls table ext,
        construct reg odecls roots table ext =
          Except.error (ConstructionError.Graph GraphError.CyclicDependency) := by
  have hclosed2 : ∀ t, (assocFind reg t).isSome = true →
      ∀ a ∈ depsOf reg t, (assocFind reg a).isSome = true := by
    intro t ht a ha
    obtain ⟨d, hd⟩ := Option.isSome_iff_exists.mp ht
    exact hclosed (t, d) (assocFind_eq_some_mem hd) a ha
  have hmain : resolve reg roots = Except.error GraphError.CyclicDependency := by
    cases hdfs : dfsTraverse reg roots with
    | ok order =>
      exfalso
      obtain ⟨hbi, hpend⟩ := dfsTraverse_ok_spec hdfs
      obtain ⟨t, ⟨r, hr, hpath⟩, hdep⟩ := hcyc
      have hclosedOrder : ∀ u ∈ order, ∀ a ∈ depsOf reg u, a ∈ order :=
        fun u hu a ha => (hbi.topo u hu a ha).1
      have htmem : t ∈ order := reachable_mem_of_closed hclosedOrder (hpend r hr) hpath
      exact no_cycle_of_topo hbi.topo htmem hdep
    | error e =>
      rcases dfsRun_error_cases
          (fun u black e2 => dfsVisit_error_cases reg (reg.length + 1) u [] black e2)
          roots [] e hdfs with rfl | rfl
      · exact absurd hdfs
          (dfsRun_no_unresolved
            (fun u black => dfsVisit_no_unresolved hclosed2 (reg.length + 1) u [] black)
            roots [] hroots)
      · unfold resolve
        rw [hdfs]
  refine ⟨hmain, ?_⟩
  intro odecls table ext
  unfold construct
  rw [hmain]

/-- Witness for C5: the two-tag cycle `0 → 1 → 0` is rejected. -/
theorem cycle_rejection_witness :
    resolve demoCycleReg [0] = Except.error GraphError.CyclicDependency ∧
      construct demoCycleReg [] [0] [] ([] : List (Nat × Int)) =
        Except.error (ConstructionError.Graph GraphError.CyclicDependency) := by
  have h := cycle_rejection demoCycleReg [0]
    (by decide)
    (by decide)
    ⟨0, ⟨0, by simp, Relation.ReflTransGen.refl⟩,
      Relation.TransGen.head
        (show (1 : Nat) ∈ depsOf demoCycleReg 0 by decide)
        (Relation.TransGen.single
          (show (0 : Nat) ∈ depsOf demoCycleReg 1 by decide))⟩
  exact ⟨h.1, h.2 [] [] []⟩

/-- **C6**: For every resolved tag set, each logical base tag resolves to
exactly one concrete implementation within a single box instance; if two
distinct concrete implementations of the same base tag appear in one
resolved set, resolution fails with `AmbiguousBaseTag` before any box is
usable. -/
theorem ambiguous_base_rejection {V : Type} [Inhabited V] (reg : Registry V)
    (roots : List Nat) :
    (∀ order, resolve reg roots = Except.ok order →
      ¬ ∃ t ∈ order, ∃ u ∈ order,
          t ≠ u ∧ baseOf reg t = baseOf reg u ∧ (baseOf reg t).isSome = true) ∧
    ∀ order, dfsTraverse reg roots = Except.ok order →
      (∃ t ∈ order, ∃ u ∈ order,
          t ≠ u ∧ baseOf reg t = baseOf reg u ∧ (baseOf reg t).isSome = true) →
      resolve reg roots = Except.error GraphError.AmbiguousBaseTag ∧
        ∀ odecls table ext,
          construct reg odecls roots table ext =
            Except.error (ConstructionError.Graph GraphError.AmbiguousBaseTag) := by
  constructor
  · intro order hok hex
    unfold resolve at hok
    split at hok
    · cases hok
    · rename_i order2 hdfs
      split at hok
      · cases hok
      · rename_i hamb
        obtain rfl : order2 = order := by simpa using hok
        exact hamb ((hasAmbiguousBase_iff reg order2).mpr hex)
  · intro order hdfs hex
    have hamb : hasAmbiguousBase reg order = true :=
      (hasAmbiguousBase_iff reg order).mpr hex
    have hres : resolve reg roots = Except.error GraphError.AmbiguousBaseTag := by
      unfold resolve
      rw [hdfs]
      simp [hamb]
    refine ⟨hres, ?_⟩
    intro odecls table ext
    unfold construct
    rw [hres]

/-- Witness for C6: two compute tags both claiming base tag 0 (the
`ParticlePositionVelocity` scenario) are rejected. -/
theorem ambiguous_base_rejection_witness :
    resolve demoAmbReg [1, 2] = Except.error GraphError.AmbiguousBaseTag ∧
      construct demoAmbReg [] [1, 2] [] ([] : List (Nat × Int)) =
        Except.error (ConstructionError.Graph GraphError.AmbiguousBaseTag) := by
  have h := (ambiguous_base_rejection demoAmbReg [1, 2]).2 [1, 2] rfl
    ⟨1, by decide, 2, by decide, by decide, by decide, by decide⟩
  exact ⟨h.1, h.2 [] [] []⟩

/-- **C7**: For every option-constructed Simple tag with a declared bound,
constructing a box with an option value outside that bound fails with
`InvalidOption` naming the offending tag and the bound violated, and no box
is constructed. -/
theorem option_bound_enforcement {V : Type} [Inhabited V] :
    (∀ (odecls : List (Nat × OptionBound)) (table : List (Nat × ℚ)) (o : Nat)
        (v lo : ℚ) (bd : OptionBound),
        assocFind table o = some v → assocFind odecls o = some bd →
        bd.lower = some lo → v < lo →
        validateOption odecls table o =
          Except.error (ConstructionError.InvalidOption o (OptionViolation.Lower lo))) ∧
    (∀ (odecls : List (Nat × OptionBound)) (table : List (Nat × ℚ)) (o : Nat)
        (v hi : ℚ) (bd : OptionBound),
        assocFind table o = some v → assocFind odecls o = some bd →
        bd.upper = some hi → hi < v →
        (∀ lo, bd.lower = some lo → ¬ v < lo) →
        validateOption odecls table o =
          Except.error (ConstructionError.InvalidOption o (OptionViolation.Upper hi))) ∧
    ∀ (reg : Registry V) (odecls : List (Nat × OptionBound)) (roots : List Nat)
        (table : List (Nat × ℚ)) (ext : List (Nat × V)) (order : List Nat)
        (t : Nat) (opts : List Nat) (create : List ℚ → V) (o : Nat)
        (e : ConstructionError),
        resolve reg roots = Except.ok order → t ∈ order →
        lookupKind reg t = some (TagKind.SimpleFromOptions opts create) →
        o ∈ opts → validateOption odecls table o = Except.error e →
        ∀ b, construct reg odecls roots table ext ≠ Except.ok b := by
  refine ⟨?_, ?_, ?_⟩
  · intro odecls table o v lo bd htab hod hlo hvlt
    simp [validateOption, htab, hod, checkLower, hlo, hvlt]
  · intro odecls table o v hi bd htab hod hhi hhiv hnlo
    cases hbl : bd.lower with
    | none => simp [validateOption, htab, hod, checkLower, checkUpper, hbl, hhi, hhiv]
    | some lo =>
      have hge := hnlo lo hbl
      simp [validateOption, htab, hod, checkLower, checkUpper, hbl, hge, hhi, hhiv]
  · intro reg odecls roots table ext order t opts create o e hres htin hk hoin hval b hcon
    obtain ⟨e2, he2⟩ := collectOptions_error_of_mem hoin hval
    have hinit : initSlot reg odecls table ext t = Except.error e2 := by
      simp [initSlot, hk, he2]
    obtain ⟨e3, he3⟩ :=
      constructSlots_error_of_mem hinit htin (fun _ => default) (fun _ => true)
    rw [construct, hres] at hcon
    simp [he3] at hcon

/-- Witness for C7: a mass of `-1` against the declared lower bound `0`
fails with `InvalidOption` naming the mass option tag and the violated
bound, and no box is constructed. -/
theorem option_bound_enforcement_witness :
    validateOption demoMassOdecls [(7, -1)] 7 =
      Except.error (ConstructionError.InvalidOption 7 (OptionViolation.Lower 0)) ∧
    ∀ b, construct demoMassReg demoMassOdecls [5] [(7, -1)]
        ([] : List (Nat × ℚ)) ≠ Except.ok b := by
  constructor
  · exact (@option_bound_enforcement ℚ _).1 demoMassOdecls [(7, -1)] 7 (-1) 0
      ⟨some 0, none⟩ rfl rfl rfl (by norm_num)
  · intro b
    exact (@option_bound_enforcement ℚ _).2.2 demoMassReg demoMassOdecls [5]
      [(7, -1)] [] [5] 5 [7] (fun vs => vs.getD 0 0) 7
      (ConstructionError.InvalidOption 7 (OptionViolation.Lower 0))
      rfl (by decide) rfl (by decide)
      ((@option_bound_enforcement ℚ _).1 demoMassOdecls [(7, -1)] 7 (-1) 0
        ⟨some 0, none⟩ rfl rfl rfl (by norm_num)) b

/-! ## Claim theorems: memoization, invalidation, consistency -/

/-- **C1**: For every Compute tag in a constructed box, calling `get` on
that tag twice with no intervening mutate of any tag invokes the tag's
compute function exactly once, and both calls return the identical cached
value (recomputation is at most once per dirty period). -/
theorem memoization {V : Type} [Inhabited V] (b : Box V) (t : Nat)
    (hinv : Inv b) (hmem : t ∈ b.tags)
    (hc : isComputeB b.registry t = true) (hd : b.dirty t = true) :
    ((get b t).log ++ (get (get b t).box t).log).count t = 1 ∧
      (get (get b t).box t).value = (get b t).value ∧
      (get b t).value = (get b t).box.value t := by
  obtain ⟨hcount, hsecond, hval⟩ := get_twice_dirty_compute hinv hmem hc hd
  rw [hsecond]
  refine ⟨?_, ?_, hval⟩
  · rw [List.count_append, hcount]
    rfl
  · show (get b t).box.value t = (get b t).value
    exact hval.symm

/-- Witness for C1: reading the diamond's top tag 3 twice in the freshly
constructed box invokes its function once and returns the cached value. -/
theorem memoization_witness :
    ((get demoDiamondBox 3).log ++ (get (get demoDiamondBox 3).box 3).log).count 3 = 1 ∧
      (get (get demoDiamondBox 3).box 3).value = (get demoDiamondBox 3).value ∧
      (get demoDiamondBox 3).value = (get demoDiamondBox 3).box.value 3 :=
  memoization demoDiamondBox 3
    (construct_ok_inv
      (rfl : construct demoDiamondReg [] [3] [] [(0, 5)] = Except.ok demoDiamondBox)).1
    (by decide) (by decide) (by decide)

/-- **C2**: For every Simple tag T and every Compute tag D that depends
directly or transitively on T, after `mutate(T, fn)` the next `get(D)`
re-invokes D's compute function, and a second `get(D)` without further
mutation does not re-invoke it. -/
theorem invalidation_completeness {V : Type} [Inhabited V]
    (b b2 : Box V) (T D : Nat) (fn : V → V)
    (hinv : Inv b) (hT : T ∈ b.tags) (hD : D ∈ b.tags)
    (hTs : isSimpleB b.registry T = true)
    (hDc : isComputeB b.registry D = true)
    (hdep : Depends b.registry D T)
    (hmut : mutate b T fn = some b2) :
    (get b2 D).log.count D = 1 ∧ (get (get b2 D).box D).log.count D = 0 := by
  obtain ⟨hs, hreg, htags, hvt, hvne, hdirty⟩ := mutate_some_spec hmut
  have hinv2 : Inv b2 := mutate_inv hinv hmut
  have hD2 : D ∈ b2.tags := by rw [htags]; exact hD
  have hDc2 : isComputeB b2.registry D = true := by rw [hreg]; exact hDc
  have hdirty2 : b2.dirty D = true := by
    rw [hdirty D]
    have hdOn : dependsOn b.registry (b.registry.length + 1) D T = true :=
      (dependsOn_iff_depends hinv.1 hD).mpr hdep
    simp [hdOn]
  obtain ⟨hcount, hsecond, _⟩ := get_twice_dirty_compute hinv2 hD2 hDc2 hdirty2
  refine ⟨hcount, ?_⟩
  rw [hsecond]
  rfl

/-- Witness for C2: after mutating the diamond's simple tag 0, reading tag
3 re-invokes its function once and a second read does not. -/
theorem invalidation_completeness_witness :
    (get demoMutatedBox 3).log.count 3 = 1 ∧
      (get (get demoMutatedBox 3).box 3).log.count 3 = 0 :=
  invalidation_completeness demoDiamondBox demoMutatedBox 0 3 (fun v => v + 1)
    (construct_ok_inv
      (rfl : construct demoDiamondReg [] [3] [] [(0, 5)] = Except.ok demoDiamondBox)).1
    (by decide) (by decide) (by decide) (by decide)
    (Relation.TransGen.head
      (show (1 : Nat) ∈ depsOf demoDiamondReg 3 by decide)
      (Relation.TransGen.single
        (show (0 : Nat) ∈ depsOf demoDiamondReg 1 by decide)))
    rfl

/-- **C4**: For every Simple tag T, `mutate(T, fn)` marks dirty exactly the
reverse-reachable (dependents) set of T and no other slot: every tag
outside T's reverse-reachable set keeps its value and its clean/dirty state
unchanged, so a counting wrapper on an unrelated Compute tag observes zero
extra invocations after the mutation. -/
theorem invalidation_minimality {V : Type} [Inhabited V]
    (b b2 : Box V) (T : Nat) (fn : V → V)
    (hinv : Inv b) (hT : T ∈ b.tags)
    (hTs : isSimpleB b.registry T = true)
    (hmut : mutate b T fn = some b2) :
    (∀ u, u ≠ T → ¬ Depends b.registry u T →
      b2.value u = b.value u ∧ b2.dirty u = b.dirty u) ∧
    b2.dirty T = b.dirty T ∧
    (∀ u ∈ b.tags, Depends b.registry u T → b2.dirty u = true) ∧
    (∀ u ∈ b.tags, isComputeB b.registry u = true → ¬ Depends b.registry u T →
      b.dirty u = false →
      (get b2 u).log = [] ∧ (get b2 u).value = b.value u ∧ (get b2 u).box = b2) := by
  obtain ⟨hs, hreg, htags, hvt, hvne, hdirty⟩ := mutate_some_spec hmut
  have hnodepOn : ∀ u, ¬ Depends b.registry u T →
      dependsOn b.registry (b.registry.length + 1) u T = false := by
    intro u hnd
    by_contra hby
    rw [Bool.not_eq_false] at hby
    exact hnd (dependsOn_sound hby)
  refine ⟨?_, ?_, ?_, ?_⟩
  · intro u hne hnd
    refine ⟨hvne u hne, ?_⟩
    rw [hdirty u, hnodepOn u hnd]
    simp
  · rw [hdirty T, dependsOn_simple_eq_false hTs]
    simp
  · intro u hu hdep
    rw [hdirty u, (dependsOn_iff_depends hinv.1 hu).mpr hdep]
    simp
  · intro u hu hc hnd hcl
    have hdirty2 : b2.dirty u = false := by
      rw [hdirty u, hnodepOn u hnd]
      simpa using hcl
    obtain ⟨args, f, hlk⟩ := exists_kind_of_isComputeB hc
    have hlk2 : lookupKind b2.registry u = some (TagKind.Compute args f) := by
      rw [hreg]; exact hlk
    have hgu : get b2 u = ⟨b2.value u, b2, []⟩ :=
      getOne_eq_clean _ hlk2 hdirty2
    rw [hgu]
    have hune : u ≠ T := by
      intro he
      rw [he] at hc
      exact Bool.noConfusion ((not_isSimpleB_of_isComputeB hc).symm.trans hTs)
    exact ⟨rfl, hvne u hune, rfl⟩

/-- Witness for C4: in the extended diamond with the unrelated clean
compute tag 5, mutating simple tag 0 leaves every non-dependent slot
untouched and a read of tag 5 performs zero invocations. -/
theorem invalidation_minimality_witness :
    (∀ u, u ≠ 0 → ¬ Depends demoFrameClean.registry u 0 →
      demoFrameMut.value u = demoFrameClean.value u ∧
        demoFrameMut.dirty u = demoFrameClean.dirty u) ∧
    demoFrameMut.dirty 0 = demoFrameClean.dirty 0 ∧
    (∀ u ∈ demoFrameClean.tags, Depends demoFrameClean.registry u 0 →
      demoFrameMut.dirty u = true) ∧
    (∀ u ∈ demoFrameClean.tags, isComputeB demoFrameClean.registry u = true →
      ¬ Depends demoFrameClean.registry u 0 → demoFrameClean.dirty u = false →
      (get demoFrameMut u).log = [] ∧
        (get demoFrameMut u).value = demoFrameClean.value u ∧
        (get demoFrameMut u).box = demoFrameMut) :=
  invalidation_minimality demoFrameClean demoFrameMut 0 (fun v => v + 1)
    ((@get_spec Int _ demoFrameBox 5
      (construct_ok_inv (rfl : construct demoFrameReg [] [3, 5] [] [(0, 5), (4, 7)] =
        Except.ok demoFrameBox)).1
      (by decide)).inv)
    (by decide) (by decide) rfl

/-- **C3**: For every Compute tag whose slot is clean, the cached value
equals the result of re-running its compute function on the current values
of its argument tags - an invariant established at construction and
preserved by every `get` and `mutate`; in particular in a diamond (tag 0
feeds tags 1 and 2, and tag 3 depends on both), mutating tag 0 and then
reading tag 3 yields exactly the value of one logical update of tag 0,
never a mix of pre- and post-mutation derived values. -/
theorem read_after_write_consistency {V : Type} [Inhabited V] :
    (∀ (reg : Registry V) (odecls : List (Nat × OptionBound)) (roots : List Nat)
        (table : List (Nat × ℚ)) (ext : List (Nat × V)) (b : Box V),
      construct reg odecls roots table ext = Except.ok b → Inv b) ∧
    (∀ (b : Box V) (t : Nat), Inv b → t ∈ b.tags → Inv (get b t).box) ∧
    (∀ (b b2 : Box V) (t : Nat) (fn : V → V),
      Inv b → mutate b t fn = some b2 → Inv b2) ∧
    (∀ b : Box V, Inv b → ∀ t ∈ b.tags, b.dirty t = false →
      ∀ args f, lookupKind b.registry t = some (TagKind.Compute args f) →
        b.value t = f (args.map b.value)) ∧
    (∀ (fB fC fD : List V → V) (fn : V → V) (tags : List Nat)
        (val : Nat → V) (dty : Nat → Bool),
      (mutate (⟨diamondReg fB fC fD, tags, val, dty⟩ : Box V) 0 fn).map
          (fun b2 => (get b2 3).value) =
        some (fD [fB [fn (val 0)], fC [fn (val 0)]])) := by
  refine ⟨?_, ?_, ?_, ?_, ?_⟩
  · intro reg odecls roots table ext b h
    exact (construct_ok_inv h).1
  · intro b t hinv hmem
    exact (get_spec hinv hmem).inv
  · intro b b2 t fn hinv hmut
    exact mutate_inv hinv hmut
  · intro b hinv t hmem hcl args f hlk
    exact (hinv.2.2 t hmem hcl args f hlk).2
  · intro fB fC fD fn tags val dty
    rfl

/-! ## Claim theorems: the source tag declarations -/

/-- **C8**: For every option value v, the option-construction functions of
the Charge, Mass, and ExpansionOrder simple tags are the identity: the
value stored in the constructed slot equals the option value v unchanged
(after bound validation). -/
theorem create_from_options_identity :
    (∀ charge : ℚ, Tags.Charge.create_from_options charge = charge) ∧
    (∀ mass : ℚ, Tags.Mass.create_from_options mass = mass) ∧
    (∀ order : Nat, Tags.ExpansionOrder.create_from_options order = order) :=
  ⟨fun _ => rfl, fun _ => rfl, fun _ => rfl⟩

/-- **C9**: The option construction of the CheckInputFile tag returns true
if and only if every circular-orbit precondition holds (background spin is
zero, black hole centered at the origin with mass 1, the functions of time
contain a Rotation quaternion function, the named excision sphere exists
with nonzero orbital radius, and the angular velocity matches
`[0, 0, orbital_radius^(-3/2)]`); when any precondition fails it raises a
fatal error and never returns false. -/
theorem check_input_file_spec :
    ∀ (domain : Tags.DomainModel) (name : String) (bg : Tags.KerrSchildModel),
      (Tags.CheckInputFile.create_from_options domain name bg = Except.ok true ↔
        (bg.zero_spin = true ∧ bg.center_is_origin = true ∧ bg.mass_is_one = true ∧
          (∃ s, assocFind domain.excision_spheres name = some s ∧
            s.center_x_is_zero = false) ∧
          domain.has_rotation = true ∧ domain.rotation_is_quaternion = true ∧
          domain.angular_velocity_is_circular = true)) ∧
      Tags.CheckInputFile.create_from_options domain name bg ≠ Except.ok false := by
  intro domain name bg
  cases hzs : bg.zero_spin with
  | false => simp [Tags.CheckInputFile.create_from_options, hzs]
  | true =>
    cases hco : bg.center_is_origin with
    | false => simp [Tags.CheckInputFile.create_from_options, hzs, hco]
    | true =>
      cases hmo : bg.mass_is_one with
      | false => simp [Tags.CheckInputFile.create_from_options, hzs, hco, hmo]
      | true =>
        cases hfind : assocFind domain.excision_spheres name with
        | none => simp [Tags.CheckInputFile.create_from_options, hzs, hco, hmo, hfind]
        | some s =>
          cases hrot : domain.has_rotation with
          | false =>
            simp [Tags.CheckInputFile.create_from_options, hzs, hco, hmo, hfind, hrot]
          | true =>
            cases hq : domain.rotation_is_quaternion with
            | false =>
              simp [Tags.CheckInputFile.create_from_options, hzs, hco, hmo, hfind,
                hrot, hq]
            | true =>
              cases hr0 : s.center_x_is_zero with
              | true =>
                simp [Tags.CheckInputFile.create_from_options, hzs, hco, hmo, hfind,
                  hrot, hq, hr0]
              | false =>
                cases hav : domain.angular_velocity_is_circular with
                | false =>
                  simp [Tags.CheckInputFile.create_from_options, hzs, hco, hmo, hfind,
                    hrot, hq, hr0, hav]
                | true =>
                  simp [Tags.CheckInputFile.create_from_options, hzs, hco, hmo, hfind,
                    hrot, hq, hr0, hav]

/-- **C10**: The option construction of the worldtube ExcisionSphere tag
raises a fatal error if and only if the named excision sphere is absent
from the domain's excision-sphere map; otherwise it returns exactly the
domain's excision sphere stored under that name. -/
theorem excision_sphere_lookup_spec {S : Type} :
    ∀ (excision_spheres : List (String × S)) (name : String),
      ((∃ msg, Tags.ExcisionSphere.create_from_options excision_spheres name =
          Except.error msg) ↔ assocFind excision_spheres name = none) ∧
      ∀ s, Tags.ExcisionSphere.create_from_options excision_spheres name =
          Except.ok s ↔ assocFind excision_spheres name = some s := by
  intro m name
  by_cases hc : assocCount m name = 0
  · have hf : assocFind m name = none :=
      (assocCount_eq_zero_iff_find_eq_none m name).mp hc
    simp [Tags.ExcisionSphere.create_from_options, hc, hf]
  · have hf : assocFind m name ≠ none := fun h =>
      hc ((assocCount_eq_zero_iff_find_eq_none m name).mpr h)
    obtain ⟨s0, hs0⟩ := Option.ne_none_iff_exists'.mp hf
    constructor
    · simp [Tags.ExcisionSphere.create_from_options, hc, hs0]
    · intro s
      simp [Tags.ExcisionSphere.create_from_options, hc, hs0]

end Spectre
